import Mathlib

/-!
# Verification of the raphdb core against its specification

Shallow embedding of the raphdb sources (RESP frame codec, command
dispatcher, the in-memory `MiniRedis` store and the append-log
`SimpleStore`) together with proofs settling the frozen claims about the
natural-language specification.

Strings and byte buffers are modelled as `List Nat` (each element one
byte; a Rust `String` is its UTF-8 byte sequence).  Machine integers are
modelled as `Nat`, with explicit `% 2 ^ 64` at the places where `u64` /
`usize` overflow can matter.
-/

set_option maxHeartbeats 1000000

namespace RaphDB

/-! ## Byte-string utilities -/

/-- The bytes of an ASCII string literal (used for concrete constants;
`Char.toNat` equals the byte value for code points below 128). -/
def ascii (s : String) : List Nat := s.data.map (fun c => c.toNat)

/-- ASCII decimal digit test, as in the `atoi` crate (`b'0' ..= b'9'`). -/
def isDigitByte (c : Nat) : Bool := 48 ≤ c && c ≤ 57

/-- Value of a big-endian list of ASCII decimal digit bytes. -/
def digitsVal (l : List Nat) : Nat := l.foldl (fun a c => a * 10 + (c - 48)) 0

/-- Worker for `natToDigits`; `fuel` only bounds the recursion depth
(any fuel above the value is enough, see `natToDigitsAux_fuel`). -/
def natToDigitsAux : Nat → Nat → List Nat → List Nat
  | 0, _, acc => acc
  | fuel + 1, n, acc =>
    if n < 10 then (48 + n) :: acc
    else natToDigitsAux fuel (n / 10) ((48 + n % 10) :: acc)

/-- Decimal digit bytes of a natural number, most significant first;
models Rust's `u64::to_string` on values below `2 ^ 64`. -/
def natToDigits (n : Nat) : List Nat := natToDigitsAux (n + 1) n []

/-- Modelled from the spec: the `atoi` crate's `atoi::<u64>` (the crate
version is fixed in the repository's `Cargo.toml`, which is not part of
the provided sources).  Per the spec, "integer decoding uses ASCII digits
only", so a line parses iff it is non-empty, consists of decimal digits
only, and its value fits in a `u64` (the crate uses checked arithmetic
and yields `None` on overflow). -/
def atoiU64 (l : List Nat) : Option Nat :=
  if l ≠ [] ∧ l.all isDigitByte ∧ digitsVal l < 2 ^ 64 then some (digitsVal l) else none

/-- Whether the byte list avoids the two-byte sequence `\r\n`
(13, 10) everywhere. -/
def crlfFree : List Nat → Bool
  | [] => true
  | c :: rest =>
    if c = 13 ∧ rest.head? = some 10 then false else crlfFree rest

/-- UTF-8 continuation byte (`0x80 ..= 0xBF`). -/
def isCont (c : Nat) : Bool := 0x80 ≤ c && c ≤ 0xBF

/-- UTF-8 validity of a byte sequence, following the exact byte-range
table implemented by Rust's `str::from_utf8`. -/
def utf8Valid : List Nat → Bool
  | [] => true
  | c :: rest =>
    if c ≤ 0x7F then utf8Valid rest
    else if 0xC2 ≤ c && c ≤ 0xDF then
      match rest with
      | c1 :: r => isCont c1 && utf8Valid r
      | [] => false
    else if c = 0xE0 then
      match rest with
      | c1 :: c2 :: r => (0xA0 ≤ c1 && c1 ≤ 0xBF) && isCont c2 && utf8Valid r
      | _ => false
    else if (0xE1 ≤ c && c ≤ 0xEC) || c = 0xEE || c = 0xEF then
      match rest with
      | c1 :: c2 :: r => isCont c1 && isCont c2 && utf8Valid r
      | _ => false
    else if c = 0xED then
      match rest with
      | c1 :: c2 :: r => (0x80 ≤ c1 && c1 ≤ 0x9F) && isCont c2 && utf8Valid r
      | _ => false
    else if c = 0xF0 then
      match rest with
      | c1 :: c2 :: c3 :: r =>
        (0x90 ≤ c1 && c1 ≤ 0xBF) && isCont c2 && isCont c3 && utf8Valid r
      | _ => false
    else if 0xF1 ≤ c && c ≤ 0xF3 then
      match rest with
      | c1 :: c2 :: c3 :: r => isCont c1 && isCont c2 && isCont c3 && utf8Valid r
      | _ => false
    else if c = 0xF4 then
      match rest with
      | c1 :: c2 :: c3 :: r =>
        (0x80 ≤ c1 && c1 ≤ 0x8F) && isCont c2 && isCont c3 && utf8Valid r
      | _ => false
    else false

/-! ## The RESP frame type (`src/connection/frame.rs`) -/

/-- `Frame` from `src/connection/frame.rs`.  `simple` and `error` carry
the bytes of a Rust `String`, `bulk` the raw payload bytes, `integer` a
`u64`. -/
inductive Frame where
  | simple (s : List Nat)
  | error (s : List Nat)
  | integer (n : Nat)
  | bulk (b : List Nat)
  | null
  | array (elems : List Frame)

/-- Errors of the frame codec (`FrameError` in
`src/connection/error.rs`): `Incomplete`, or `Other` carrying a
message. -/
inductive FrameError where
  | incomplete
  | other (msg : String)
deriving DecidableEq

/-- `Frame::is_array`-style discriminant test (used to state claims
about the non-`Array` variants). -/
def Frame.isArray : Frame → Bool
  | .array _ => true
  | _ => false

def crlf : List Nat := [13, 10]

/-- `Frame::create_bytes` from `src/connection/frame.rs`.  The function
returns `io::Result<BytesMut>` in Rust but no branch ever constructs the
`Err` case (all `BytesMut` writes are infallible), so a successful run
is modelled as `some bytes`; the `Frame::Array` arm executes
`unreachable!()`, i.e. panics, modelled as `none`. -/
def createBytes : Frame → Option (List Nat)
  | .simple s => some (43 :: (s ++ crlf))
  | .error s => some (45 :: (s ++ crlf))
  | .integer n => some (58 :: (natToDigits n ++ crlf))
  | .null => some [36, 45, 49, 13, 10]
  | .bulk b => some (36 :: (natToDigits b.length ++ crlf ++ b ++ crlf))
  | .array _ => none

/-! ## The byte cursor and its primitives

The Rust code reads from a `Cursor<&[u8]>`.  The buffer is modelled as a
total memory function together with an explicit length: only the indices
below `len` are "the supplied buffer", and the out-of-bounds insensitivity
theorem for `check` quantifies over the bytes beyond `len`. -/

structure Buf where
  mem : Nat → Nat
  len : Nat

/-- Buffer holding exactly the bytes of `l` (out-of-range reads yield the
junk value 0, which the insensitivity theorem shows is never consulted). -/
def bufOfList (l : List Nat) : Buf := ⟨fun i => l.getD i 0, l.length⟩

/-- `peek_u8`: fails with `Incomplete` when no byte remains
(`has_remaining`), otherwise returns the byte at the cursor. -/
def peekU8 (b : Buf) (pos : Nat) : Except FrameError Nat :=
  if pos < b.len then .ok (b.mem pos) else .error .incomplete

/-- `get_u8`: like `peek_u8` but advances the cursor. -/
def getU8 (b : Buf) (pos : Nat) : Except FrameError (Nat × Nat) :=
  if pos < b.len then .ok (b.mem pos, pos + 1) else .error .incomplete

/-- `skip(src, n)`: `Incomplete` unless `n` bytes remain, otherwise
advances by `n`. -/
def skip (b : Buf) (pos n : Nat) : Except FrameError Nat :=
  if b.len - pos < n then .error .incomplete else .ok (pos + n)

/-- Scan worker for `findLine`: try `steps` consecutive positions
starting at `i` for a `\r\n` pair. -/
def findLineAux (b : Buf) : Nat → Nat → Option Nat
  | 0, _ => none
  | steps + 1, i =>
    if b.mem i = 13 ∧ b.mem (i + 1) = 10 then some i
    else findLineAux b steps (i + 1)

/-- The scan loop of `get_line`: starting at `i`, find the first
position carrying `\r\n`, scanning `i` up to (excluding) `len - 1` —
the loop in the source runs `for i in start..end` with
`end = len - 1`, so the bytes inspected are at `i` and `i + 1 ≤ len - 1`,
never at or past `len`. -/
def findLine (b : Buf) (i : Nat) : Option Nat := findLineAux b (b.len - 1 - i) i

/-- The bytes `b.mem lo, …, b.mem (hi - 1)` (the slice `&buf[lo..hi]`). -/
def extract (b : Buf) (lo hi : Nat) : List Nat :=
  (List.range (hi - lo)).map (fun j => b.mem (lo + j))

/-- `get_line`: returns the line (bytes strictly before the `\r`) and the
new cursor position (just after the `\n`), or `Incomplete` when no
`\r\n` occurs before the end of the buffer. -/
def getLine (b : Buf) (pos : Nat) : Except FrameError (List Nat × Nat) :=
  match findLine b pos with
  | some i => .ok (extract b pos i, i + 2)
  | none => .error .incomplete

/-- `get_decimal`: a `\r\n`-terminated line fed to `atoi::<u64>`; a
non-parse is the protocol error `"protocol error; invalid frame
format"`. -/
def getDecimal (b : Buf) (pos : Nat) : Except FrameError (Nat × Nat) :=
  match getLine b pos with
  | .error e => .error e
  | .ok (line, p) =>
    match atoiU64 line with
    | some n => .ok (n, p)
    | none => .error (.other "protocol error; invalid frame format")

/-! ### Characterisation of `findLine` -/

/-- Position `i` of `b` carries the pair `\r\n`. -/
def crlfAt (b : Buf) (i : Nat) : Prop := b.mem i = 13 ∧ b.mem (i + 1) = 10

instance (b : Buf) (i : Nat) : Decidable (crlfAt b i) := by
  unfold crlfAt; infer_instance

theorem findLineAux_eq_some {b : Buf} {steps i j : Nat} :
    findLineAux b steps i = some j ↔
      i ≤ j ∧ j < i + steps ∧ crlfAt b j ∧ ∀ k, i ≤ k → k < j → ¬ crlfAt b k := by
  induction steps generalizing i with
  | zero =>
    rw [findLineAux]
    constructor
    · intro h; exact Option.noConfusion h
    · rintro ⟨h1, h2, _⟩; omega
  | succ steps ih =>
    rw [findLineAux]
    by_cases hpair : b.mem i = 13 ∧ b.mem (i + 1) = 10
    · rw [if_pos hpair]
      constructor
      · intro h
        injection h with h
        subst h
        exact ⟨le_refl _, by omega, hpair, fun k hk hk' => absurd hk (by omega)⟩
      · rintro ⟨h1, _, hp, hmin⟩
        rcases Nat.lt_or_ge i j with h | h
        · exact absurd hpair (hmin i (le_refl _) h)
        · have : i = j := by omega
          rw [this]
    · rw [if_neg hpair, ih]
      constructor
      · rintro ⟨h1, h2, hp, hmin⟩
        refine ⟨by omega, by omega, hp, fun k hk hk' => ?_⟩
        rcases Nat.eq_or_lt_of_le hk with rfl | hk
        · exact hpair
        · exact hmin k hk hk'
      · rintro ⟨h1, h2, hp, hmin⟩
        have : i ≠ j := by rintro rfl; exact hpair hp
        exact ⟨by omega, by omega, hp, fun k hk hk' => hmin k (by omega) hk'⟩

theorem findLine_eq_some {b : Buf} {i j : Nat} :
    findLine b i = some j ↔
      i ≤ j ∧ j < b.len - 1 ∧ crlfAt b j ∧ ∀ k, i ≤ k → k < j → ¬ crlfAt b k := by
  rw [findLine, findLineAux_eq_some]
  constructor
  · rintro ⟨h1, h2, hp, hmin⟩
    exact ⟨h1, by omega, hp, hmin⟩
  · rintro ⟨h1, h2, hp, hmin⟩
    exact ⟨h1, by omega, hp, hmin⟩

theorem findLineAux_eq_none {b : Buf} {steps i : Nat} :
    findLineAux b steps i = none ↔ ∀ k, i ≤ k → k < i + steps → ¬ crlfAt b k := by
  induction steps generalizing i with
  | zero =>
    rw [findLineAux]
    constructor
    · intro _ k hk hk'; omega
    · intro _; rfl
  | succ steps ih =>
    rw [findLineAux]
    by_cases hpair : b.mem i = 13 ∧ b.mem (i + 1) = 10
    · rw [if_pos hpair]
      constructor
      · intro h; exact Option.noConfusion h
      · intro h
        exact absurd hpair (h i (le_refl _) (by omega))
    · rw [if_neg hpair, ih]
      constructor
      · intro h k hk hk'
        rcases Nat.eq_or_lt_of_le hk with rfl | hk
        · exact hpair
        · exact h k hk (by omega)
      · intro h k hk hk'
        exact h k (by omega) (by omega)

theorem findLine_eq_none {b : Buf} {i : Nat} :
    findLine b i = none ↔ ∀ k, i ≤ k → k < b.len - 1 → ¬ crlfAt b k := by
  rw [findLine, findLineAux_eq_none]
  constructor
  · intro h k hk hk'
    exact h k hk (by omega)
  · intro h k hk hk'
    exact h k hk (by omega)

/-! ### Decimal digit strings -/

theorem natToDigitsAux_fuel {fuel fuel' n : Nat} (acc : List Nat)
    (h : n < fuel) (h' : n < fuel') :
    natToDigitsAux fuel n acc = natToDigitsAux fuel' n acc := by
  induction fuel generalizing fuel' n acc with
  | zero => omega
  | succ fuel ih =>
    cases fuel' with
    | zero => omega
    | succ fuel' =>
      rw [natToDigitsAux, natToDigitsAux]
      by_cases h10 : n < 10
      · rw [if_pos h10, if_pos h10]
      · rw [if_neg h10, if_neg h10]
        have hd : n / 10 < n := Nat.div_lt_self (by omega) (by omega)
        exact ih _ (by omega) (by omega)

theorem natToDigitsAux_acc {fuel n : Nat} (acc : List Nat) (h : n < fuel) :
    natToDigitsAux fuel n acc = natToDigitsAux fuel n [] ++ acc := by
  induction fuel generalizing n acc with
  | zero => omega
  | succ fuel ih =>
    rw [natToDigitsAux]
    conv_rhs => rw [natToDigitsAux]
    by_cases h10 : n < 10
    · rw [if_pos h10, if_pos h10]
      rfl
    · rw [if_neg h10, if_neg h10]
      have hd : n / 10 < n := Nat.div_lt_self (by omega) (by omega)
      rw [ih _ (by omega), ih ([48 + n % 10]) (by omega)]
      simp

theorem natToDigits_of_lt {n : Nat} (h : n < 10) : natToDigits n = [48 + n] := by
  rw [natToDigits, natToDigitsAux, if_pos h]

theorem natToDigits_of_ge {n : Nat} (h : 10 ≤ n) :
    natToDigits n = natToDigits (n / 10) ++ [48 + n % 10] := by
  have hd : n / 10 < n := Nat.div_lt_self (by omega) (by omega)
  rw [natToDigits, natToDigitsAux, if_neg (by omega),
    natToDigitsAux_acc _ (by omega), natToDigits,
    natToDigitsAux_fuel [] (show n / 10 < n from hd) (Nat.lt_succ_self _)]

theorem digitsVal_append (l : List Nat) (d : Nat) :
    digitsVal (l ++ [d]) = digitsVal l * 10 + (d - 48) := by
  simp [digitsVal, List.foldl_append]

theorem digitsVal_natToDigits (n : Nat) : digitsVal (natToDigits n) = n := by
  induction n using Nat.strong_induction_on with
  | _ n ih =>
    by_cases h : n < 10
    · rw [natToDigits_of_lt h]
      simp [digitsVal]
    · have hd : n / 10 < n := Nat.div_lt_self (by omega) (by omega)
      rw [natToDigits_of_ge (by omega), digitsVal_append, ih (n / 10) hd]
      omega

theorem natToDigits_mem {n d : Nat} (h : d ∈ natToDigits n) : 48 ≤ d ∧ d ≤ 57 := by
  induction n using Nat.strong_induction_on with
  | _ n ih =>
    by_cases h10 : n < 10
    · rw [natToDigits_of_lt h10] at h
      simp at h
      omega
    · have hd : n / 10 < n := Nat.div_lt_self (by omega) (by omega)
      rw [natToDigits_of_ge (by omega)] at h
      rcases List.mem_append.mp h with h | h
      · exact ih (n / 10) hd h
      · simp at h
        have := Nat.mod_lt n (show 0 < 10 by omega)
        omega

theorem natToDigits_ne_nil (n : Nat) : natToDigits n ≠ [] := by
  by_cases h : n < 10
  · rw [natToDigits_of_lt h]; simp
  · rw [natToDigits_of_ge (by omega)]; simp

theorem atoiU64_natToDigits {n : Nat} (h : n < 2 ^ 64) :
    atoiU64 (natToDigits n) = some n := by
  rw [atoiU64, if_pos, digitsVal_natToDigits]
  refine ⟨natToDigits_ne_nil n, ?_, by rw [digitsVal_natToDigits]; exact h⟩
  rw [List.all_eq_true]
  intro d hd
  have := natToDigits_mem hd
  simp [isDigitByte]
  omega

/-! ### `crlfFree` characterisation -/

theorem crlfFree_iff {l : List Nat} :
    crlfFree l = true ↔
      ∀ i, i + 1 < l.length → ¬(l.getD i 0 = 13 ∧ l.getD (i + 1) 0 = 10) := by
  induction l with
  | nil => simp [crlfFree]
  | cons c rest ih =>
    rw [crlfFree]
    by_cases h0 : c = 13 ∧ rest.head? = some 10
    · rw [if_pos h0]
      simp only [Bool.false_eq_true, false_iff, not_forall]
      rcases rest with _ | ⟨r0, rtail⟩
      · exact absurd h0.2 (by simp)
      · have hr : r0 = 10 := by
          have := h0.2
          simp at this
          exact this
        exact ⟨0, by simp, by simp [h0.1, hr]⟩
    · rw [if_neg h0, ih]
      constructor
      · intro h i hi
        cases i with
        | zero =>
          rintro ⟨hc, hr⟩
          rcases rest with _ | ⟨r0, rtail⟩
          · simp at hi
          · simp at hr
            exact h0 ⟨hc, by simp [hr]⟩
        | succ i =>
          have := h i (by simpa using hi)
          simpa using this
      · intro h i hi
        have := h (i + 1) (by simpa using hi)
        simpa using this

theorem crlfFree_of_no13 {l : List Nat} (h : ∀ d ∈ l, d ≠ 13) :
    crlfFree l = true := by
  rw [crlfFree_iff]
  intro i hi
  rintro ⟨h13, _⟩
  have hmem : l.getD i 0 ∈ l := by
    rw [List.getD_eq_getElem l 0 (by omega)]
    exact l.getElem_mem _
  exact h _ hmem h13

theorem crlfFree_natToDigits (n : Nat) : crlfFree (natToDigits n) = true :=
  crlfFree_of_no13 (fun d hd => by have := natToDigits_mem hd; omega)

/-! ### `extract` on list-backed buffers -/

theorem extract_bufOfList {l : List Nat} (lo hi : Nat) (h : hi ≤ l.length) :
    extract (bufOfList l) lo hi = (l.drop lo).take (hi - lo) := by
  apply List.ext_getElem
  · simp [extract]
    omega
  · intro i h1 h2
    simp only [extract, bufOfList, List.getElem_map, List.getElem_range,
      List.getElem_take, List.getElem_drop]
    have hlen : lo + i < l.length := by
      simp [extract] at h1
      omega
    rw [List.getD_eq_getElem l 0 hlen]

theorem extract_append_middle (a m c : List Nat) :
    extract (bufOfList (a ++ m ++ c)) a.length (a.length + m.length) = m := by
  rw [extract_bufOfList _ _ (by simp)]
  rw [List.append_assoc, List.drop_left]
  simp [List.take_left]

/-! ### Reading a header line `<c><line>\r\n...` -/

theorem getLine_header {s : List Nat} (c : Nat) (rest : List Nat)
    (h : crlfFree s = true) :
    getLine (bufOfList (c :: (s ++ 13 :: 10 :: rest))) 1
      = .ok (s, s.length + 3) := by
  have hshape : c :: (s ++ 13 :: 10 :: rest) = (c :: s) ++ (13 :: 10 :: rest) := by
    simp
  have hfind : findLine (bufOfList (c :: (s ++ 13 :: 10 :: rest))) 1
      = some (s.length + 1) := by
    rw [findLine_eq_some]
    refine ⟨by omega, ?_, ⟨?_, ?_⟩, ?_⟩
    · simp only [bufOfList, List.length_cons, List.length_append]
      omega
    · show (bufOfList (c :: (s ++ 13 :: 10 :: rest))).mem (s.length + 1) = 13
      rw [hshape]
      show ((c :: s) ++ (13 :: 10 :: rest)).getD (s.length + 1) 0 = 13
      rw [List.getD_append_right _ _ _ _ (by simp)]
      simp
    · show (bufOfList (c :: (s ++ 13 :: 10 :: rest))).mem (s.length + 1 + 1) = 10
      rw [hshape]
      show ((c :: s) ++ (13 :: 10 :: rest)).getD (s.length + 2) 0 = 10
      rw [List.getD_append_right _ _ _ _ (by simp)]
      simp
    · intro k hk1 hk2
      rintro ⟨hp1, hp2⟩
      rw [hshape] at hp1 hp2
      have hklen : k < (c :: s).length := by simp; omega
      rw [show ((bufOfList ((c :: s) ++ 13 :: 10 :: rest)).mem k)
            = ((c :: s) ++ (13 :: 10 :: rest)).getD k 0 from rfl,
        List.getD_append _ _ _ _ hklen] at hp1
      rcases Nat.lt_or_ge (k + 1) (c :: s).length with hk3 | hk3
      · rw [show ((bufOfList ((c :: s) ++ 13 :: 10 :: rest)).mem (k + 1))
              = ((c :: s) ++ (13 :: 10 :: rest)).getD (k + 1) 0 from rfl,
          List.getD_append _ _ _ _ hk3] at hp2
        -- both bytes inside `s`: contradicts crlfFree
        have hc := crlfFree_iff.mp h (k - 1) (by simp at hk3; omega)
        apply hc
        constructor
        · have : (c :: s).getD k 0 = s.getD (k - 1) 0 := by
            rcases k with _ | k
            · omega
            · simp
          rw [← this]; exact hp1
        · have : (c :: s).getD (k + 1) 0 = s.getD (k - 1 + 1) 0 := by
            rcases k with _ | k
            · omega
            · simp
          rw [← this]; exact hp2
      · -- `k + 1` lands on the `\r`: the second byte is 13, not 10
        have hk4 : k + 1 = (c :: s).length := by simp at hk3 hklen ⊢; omega
        rw [show ((bufOfList ((c :: s) ++ 13 :: 10 :: rest)).mem (k + 1))
              = ((c :: s) ++ (13 :: 10 :: rest)).getD (k + 1) 0 from rfl,
          List.getD_append_right _ _ _ _ (by omega), hk4] at hp2
        simp at hp2
  have hextract : extract (bufOfList (c :: (s ++ 13 :: 10 :: rest))) 1 (s.length + 1) = s := by
    have h2 := extract_append_middle [c] s (13 :: 10 :: rest)
    have e1 : ([c] ++ s ++ (13 :: 10 :: rest)) = c :: (s ++ 13 :: 10 :: rest) := by simp
    rw [e1] at h2
    have e2 : ([c] : List Nat).length = 1 := rfl
    rw [e2] at h2
    rw [Nat.add_comm 1 s.length] at h2
    exact h2
  simp only [getLine, hfind, hextract]

theorem getDecimal_header {n : Nat} (c : Nat) (rest : List Nat) (h : n < 2 ^ 64) :
    getDecimal (bufOfList (c :: (natToDigits n ++ 13 :: 10 :: rest))) 1
      = .ok (n, (natToDigits n).length + 3) := by
  simp only [getDecimal, getLine_header c rest (crlfFree_natToDigits n),
    atoiU64_natToDigits h]

/-! ## `Frame::check` and `Frame::parse`

The Rust functions recurse through the `*` (array) arm.  Termination
there rests on each element consuming at least one byte, so the model
uses a fuel parameter that is decremented exactly when descending from
the array header into its elements; `none` means the fuel ran out (a
model artifact — sufficiency and monotonicity lemmas below show any
fuel above the buffer length gives the Rust behaviour). -/

/-- The `for _ in 0..len` loop of the `*` arm of `Frame::check`,
abstracted over the step that checks one element (the recursive
`Frame::check(src)?` call). -/
def checkManyStep (step : Nat → Option (Except FrameError Nat)) :
    Nat → Nat → Option (Except FrameError Nat)
  | 0, pos => some (.ok pos)
  | n + 1, pos =>
    match step pos with
    | none => none
    | some (.error e) => some (.error e)
    | some (.ok p) => checkManyStep step n p

/-- `Frame::check` from `src/connection/frame.rs`: advance over exactly
one frame, returning the final cursor position.  The `$` arm, upon
peeking `-`, skips 4 bytes without validating them; the `$` length and
`*` count arms go through `get_decimal`.  `usize` additions are taken
`% 2 ^ 64`. -/
def checkF : Nat → Buf → Nat → Option (Except FrameError Nat)
  | 0, _, _ => none
  | fuel + 1, b, pos =>
    match getU8 b pos with
    | .error e => some (.error e)
    | .ok (c, pos1) =>
      if c = 43 ∨ c = 45 then
        match getLine b pos1 with
        | .error e => some (.error e)
        | .ok (_, p) => some (.ok p)
      else if c = 58 then
        match getDecimal b pos1 with
        | .error e => some (.error e)
        | .ok (_, p) => some (.ok p)
      else if c = 36 then
        match peekU8 b pos1 with
        | .error e => some (.error e)
        | .ok cc =>
          if cc = 45 then
            some (skip b pos1 4)
          else
            match getDecimal b pos1 with
            | .error e => some (.error e)
            | .ok (len, p) => some (skip b p ((len + 2) % 2 ^ 64))
      else if c = 42 then
        match getDecimal b pos1 with
        | .error e => some (.error e)
        | .ok (n, p) => checkManyStep (checkF fuel b) n p
      else
        some (.error (.other s!"protocol error; invalid frame type byte `{c}`"))

/-- Result of a run of `Frame::parse`: a normal return, the
`unimplemented!()` panic of the catch-all arm, or fuel exhaustion
(model artifact). -/
inductive PRun where
  | out (r : Except FrameError (Frame × Nat))
  | unimpl
  | more

/-- Result of the element loop of the `*` arm of `Frame::parse`. -/
inductive MRun where
  | out (r : Except FrameError (List Frame × Nat))
  | unimpl
  | more

/-- The `for _ in 0..len` loop of the `*` arm of `Frame::parse`,
collecting the parsed elements in order, abstracted over the step that
parses one element. -/
def parseManyStep (step : Nat → PRun) : Nat → Nat → MRun
  | 0, pos => .out (.ok ([], pos))
  | n + 1, pos =>
    match step pos with
    | .more => .more
    | .unimpl => .unimpl
    | .out (.error e) => .out (.error e)
    | .out (.ok (f, p)) =>
      match parseManyStep step n p with
      | .out (.ok (fs, q)) => .out (.ok (f :: fs, q))
      | r => r

/-- `Frame::parse` from `src/connection/frame.rs`.  `+`/`-` lines are
UTF-8-decoded (`String::from_utf8`, whose failure becomes the protocol
error `"protocol error; invalid frame format"`); the `$` arm with a `-`
peek requires the line to be exactly `-1`; the bulk arm re-checks
`remaining < len + 2` and copies `len` bytes; the catch-all arm is
`unimplemented!()`, a panic. -/
def parseF : Nat → Buf → Nat → PRun
  | 0, _, _ => .more
  | fuel + 1, b, pos =>
    match getU8 b pos with
    | .error e => .out (.error e)
    | .ok (c, pos1) =>
      if c = 43 then
        match getLine b pos1 with
        | .error e => .out (.error e)
        | .ok (line, p) =>
          if utf8Valid line then .out (.ok (.simple line, p))
          else .out (.error (.other "protocol error; invalid frame format"))
      else if c = 45 then
        match getLine b pos1 with
        | .error e => .out (.error e)
        | .ok (line, p) =>
          if utf8Valid line then .out (.ok (.error line, p))
          else .out (.error (.other "protocol error; invalid frame format"))
      else if c = 58 then
        match getDecimal b pos1 with
        | .error e => .out (.error e)
        | .ok (n, p) => .out (.ok (.integer n, p))
      else if c = 36 then
        match peekU8 b pos1 with
        | .error e => .out (.error e)
        | .ok cc =>
          if cc = 45 then
            match getLine b pos1 with
            | .error e => .out (.error e)
            | .ok (line, p) =>
              if line = [45, 49] then .out (.ok (.null, p))
              else .out (.error (.other "protocol error; invalid frame format"))
          else
            match getDecimal b pos1 with
            | .error e => .out (.error e)
            | .ok (len, p) =>
              let n := (len + 2) % 2 ^ 64
              if b.len - p < n then .out (.error .incomplete)
              else .out (.ok (.bulk (extract b p (p + len)), p + n))
      else if c = 42 then
        match getDecimal b pos1 with
        | .error e => .out (.error e)
        | .ok (n, p) =>
          match parseManyStep (parseF fuel b) n p with
          | .out (.error e) => .out (.error e)
          | .out (.ok (fs, q)) => .out (.ok (.array fs, q))
          | .unimpl => .unimpl
          | .more => .more
      else
        .unimpl

/-! ## The append-log store (`src/server/key_value_store/simple_store.rs`)

The log file is a byte list; the index is an association list from key
bytes to byte offsets.  Keys and values are the bytes of the Rust
`String` / `Bytes` arguments. -/

/-- `HashMap::insert` on an association list (the mapping view of the
Rust `HashMap<String, usize>`). -/
def ainsert (k : List Nat) (v : Nat) (m : List (List Nat × Nat)) :
    List (List Nat × Nat) :=
  (k, v) :: m.filter (fun p => p.1 ≠ k)

/-- `HashMap::get` on the association-list index. -/
def alookup (m : List (List Nat × Nat)) (k : List Nat) : Option Nat :=
  (m.find? (fun p => p.1 = k)).map (fun p => p.2)

/-- State of a `SimpleStore`: log-file bytes, in-memory index, and the
declared-but-unused `shutdown` flag. -/
structure SState where
  file : List Nat
  index : List (List Nat × Nat)
  shutdown : Bool

def initSS : SState := ⟨[], [], false⟩

/-- `SimpleStore::set`: append the record `key ++ "," ++ value ++ "\n"`,
index the key at the file length observed before the write. -/
def ssSet (s : SState) (key value : List Nat) : SState :=
  { s with
    file := s.file ++ (key ++ 44 :: (value ++ [10])),
    index := ainsert key s.file.length s.index }

/-- Run a sequence of `set` operations from the initial empty store. -/
def runSets (ops : List (List Nat × List Nat)) : SState :=
  ops.foldl (fun s kv => ssSet s kv.1 kv.2) initSS

/-- Splitting a byte string at every occurrence of `sep`, as Rust's
`str::split` (always at least one piece; empty pieces kept). -/
def splitOnByte (sep : Nat) : List Nat → List (List Nat)
  | [] => [[]]
  | c :: rest =>
    if c = sep then [] :: splitOnByte sep rest
    else
      match splitOnByte sep rest with
      | h :: t => (c :: h) :: t
      | [] => [[c]]

/-- `BufRead::read_line` starting at the front of the given bytes: reads
up to and *including* the first `\n`, or to end of file. -/
def readLine : List Nat → List Nat
  | [] => []
  | c :: rest => if c = 10 then [10] else c :: readLine rest

/-- `SimpleStore::get`: look up the offset, read one line there
(`read_line` keeps the trailing newline and requires UTF-8), split on
`,`, check the arity and the key, and join the remaining fields with the
empty separator. -/
def ssGet (s : SState) (key : List Nat) : Except String (Option (List Nat)) :=
  match alookup s.index key with
  | none => .ok none
  | some off =>
    let data := readLine (s.file.drop off)
    if utf8Valid data then
      match splitOnByte 44 data with
      | k0 :: v0 :: rest =>
        if k0 = key then .ok (some (v0 :: rest).flatten)
        else .error "log data key does not match index key"
      | _ => .error "Index key log data is corrupted"
    else .error "stream did not contain valid UTF-8"

/-- Strip one trailing `\r`, as tokio's `Lines` does after removing the
`\n` terminator. -/
def stripCR (l : List Nat) : List Nat :=
  if l.getLast? = some 13 then l.dropLast else l

/-- The lines yielded by tokio's `reader.lines()` over the file bytes:
split at `\n`; a final piece after the last `\n` is yielded verbatim
(no `\r` stripping, since no `\n` was removed), and no empty final line
is yielded when the file ends with `\n`. -/
def tokioLines (file : List Nat) : List (List Nat) :=
  let segs := splitOnByte 10 file
  match segs.getLast? with
  | some [] => segs.dropLast.map stripCR
  | some last => segs.dropLast.map stripCR ++ [last]
  | none => []

/-- Failure modes of `SimpleStore::recover`: the explicit corruption
`bail!` (which reports the running byte offset), or the I/O error tokio
returns when a line is not valid UTF-8. -/
inductive RecoverError where
  | corrupted (byteOffset : Nat)
  | invalidUtf8
deriving DecidableEq

/-- The `while let Some(line)` loop of `SimpleStore::recover`: each line
must have at least two comma-separated fields; the first field is
indexed at the running byte offset, which then advances by
`line.len() + 1` for the newline. -/
def recoverLoop : List (List Nat) → Nat → List (List Nat × Nat) →
    Except RecoverError (List (List Nat × Nat))
  | [], _, idx => .ok idx
  | line :: rest, off, idx =>
    if utf8Valid line then
      match splitOnByte 44 line with
      | k0 :: _ :: _ => recoverLoop rest (off + line.length + 1) (ainsert k0 off idx)
      | _ => .error (.corrupted off)
    else .error .invalidUtf8

/-- `SimpleStore::recover`: rebuild the index by streaming the log file
line by line. -/
def recover (file : List Nat) : Except RecoverError (List (List Nat × Nat)) :=
  recoverLoop (tokioLines file) 0 []

/-! ## The in-memory store (`src/server/key_value_store/mini_redis.rs`)

`entries` (a `HashMap`) is modelled by its lookup function; `expirations`
(a `BTreeMap` keyed by `(Instant, u64)`) by an association list kept
sorted in strictly increasing key order, which is exactly the order the
Rust code iterates it in.  `Instant`s are `Nat` timestamps and every
operation that reads the clock takes the current time as an argument. -/

/-- An `Entry` of the key-value data. -/
structure Entry where
  id : Nat
  data : List Nat
  expiresAt : Option Nat
deriving DecidableEq

/-- The `State` guarded by the mutex.  `pubSub` models the reserved
`pub_sub` channel map (senders as opaque numbers); no operation touches
it. -/
structure RState where
  entries : List Nat → Option Entry
  pubSub : List Nat → Option Nat
  expirations : List ((Nat × Nat) × List Nat)
  nextId : Nat
  shutdown : Bool

def initRState : RState := ⟨fun _ => none, fun _ => none, [], 0, false⟩

/-- Strict order on `BTreeMap` keys `(Instant, u64)` (lexicographic). -/
def pairLt (a b : Nat × Nat) : Prop := a.1 < b.1 ∨ (a.1 = b.1 ∧ a.2 < b.2)

instance (a b : Nat × Nat) : Decidable (pairLt a b) := by
  unfold pairLt; infer_instance

/-- `BTreeMap::insert` on the sorted association list (replaces an equal
key, otherwise inserts in order). -/
def expInsert (k : Nat × Nat) (v : List Nat) :
    List ((Nat × Nat) × List Nat) → List ((Nat × Nat) × List Nat)
  | [] => [(k, v)]
  | (k', v') :: rest =>
    if pairLt k k' then (k, v) :: (k', v') :: rest
    else if k = k' then (k, v) :: rest
    else (k', v') :: expInsert k v rest

/-- `BTreeMap::remove` on the sorted association list. -/
def expRemove (k : Nat × Nat) :
    List ((Nat × Nat) × List Nat) → List ((Nat × Nat) × List Nat)
  | [] => []
  | (k', v') :: rest => if k = k' then rest else (k', v') :: expRemove k rest

/-- `State::next_expiration`: the instant of the first (smallest) key of
`expirations`. -/
def nextExpiration (s : RState) : Option Nat :=
  s.expirations.head?.map (fun p => p.1.1)

/-- The fixed TTL applied by every `set`
(`Duration::from_millis(100000)`). -/
def defaultTTLMillis : Nat := 100000

/-- `MiniRedis::set` at clock reading `now`: allocate a fresh id, track
the expiration `(now + TTL, id) → key`, insert the entry, drop a
replaced entry's expiration tuple, and compute the notify flag from the
next expiration *before* the insertion. -/
def setEntry (now : Nat) (key value : List Nat) (s : RState) : RState × Bool :=
  let id := s.nextId
  let when := now + defaultTTLMillis
  let notify :=
    match nextExpiration s with
    | some expiration => decide (when < expiration)
    | none => true
  let exps1 := expInsert (when, id) key s.expirations
  let prev := s.entries key
  let entries1 : List Nat → Option Entry :=
    fun k => if k = key then some ⟨id, value, some when⟩ else s.entries k
  let exps2 :=
    match prev with
    | some pe =>
      match pe.expiresAt with
      | some w => expRemove (w, pe.id) exps1
      | none => exps1
    | none => exps1
  ({ s with entries := entries1, expirations := exps2, nextId := s.nextId + 1 },
   notify)

def setState (now : Nat) (key value : List Nat) (s : RState) : RState :=
  (setEntry now key value s).1

/-- `MiniRedis::get`: under the lock, a pure lookup returning a clone of
the payload; the state is returned unchanged (the method performs no
writes). -/
def rGet (key : List Nat) (s : RState) : Option (List Nat) × RState :=
  ((s.entries key).map Entry.data, s)

/-- `MiniRedis::shutdown_purge_task`: set the `shutdown` flag. -/
def shutdownPurge (s : RState) : RState := { s with shutdown := true }

/-- The drain loop of `Shared::purge_expired_keys`: repeatedly take the
first (smallest) expiration; if it is still in the future return it,
otherwise remove the key from `entries` and the tuple from
`expirations`. -/
def purgeLoop (now : Nat) :
    List ((Nat × Nat) × List Nat) → (List Nat → Option Entry) →
    Option Nat × List ((Nat × Nat) × List Nat) × (List Nat → Option Entry)
  | [], entries => (none, [], entries)
  | ((when, id), key) :: rest, entries =>
    if now < when then (some when, ((when, id), key) :: rest, entries)
    else purgeLoop now rest (fun k => if k = key then none else entries k)

/-- `Shared::purge_expired_keys` at clock reading `now`: exit immediately
under shutdown, otherwise drain the expired prefix. -/
def purgeExpiredKeys (now : Nat) (s : RState) : Option Nat × RState :=
  if s.shutdown then (none, s)
  else
    let r := purgeLoop now s.expirations s.entries
    (r.1, { s with expirations := r.2.1, entries := r.2.2 })

def purgeState (now : Nat) (s : RState) : RState := (purgeExpiredKeys now s).2

/-- States reachable from the initial empty store by `set`,
`purge_expired_keys` and `shutdown_purge_task` (at arbitrary clock
readings).  `get` performs no state change (`rGet` returns the state
unchanged), so it needs no constructor. -/
inductive Reach : RState → Prop where
  | init : Reach initRState
  | set (now : Nat) (key value : List Nat) {s : RState} :
      Reach s → Reach (setState now key value s)
  | purge (now : Nat) {s : RState} : Reach s → Reach (purgeState now s)
  | shutdown {s : RState} : Reach s → Reach (shutdownPurge s)

/-! ## The command dispatcher (`src/connection/cmd/`, `src/connection/parser.rs`) -/

/-- `ParserError` from `src/connection/error.rs`. -/
inductive ParserError where
  | endOfStream
  | other (msg : String)
deriving DecidableEq

/-- `Parser::next_string`: `Simple` yields its string, `Bulk` must be
UTF-8; the iterator state is the remaining frames. -/
def nextString : List Frame → Except ParserError (List Nat × List Frame)
  | [] => .error .endOfStream
  | .simple s :: rest => .ok (s, rest)
  | .bulk d :: rest =>
    if utf8Valid d then .ok (d, rest)
    else .error (.other "protocol error; invalid string")
  | _ :: _ => .error (.other "protocol error; expected simple frame or bulk frame")

/-- `Parser::next_bytes`: `Simple` or `Bulk`, raw bytes. -/
def nextBytes : List Frame → Except ParserError (List Nat × List Frame)
  | [] => .error .endOfStream
  | .simple s :: rest => .ok (s, rest)
  | .bulk d :: rest => .ok (d, rest)
  | _ :: _ => .error (.other "protocol error; expected simple frame or bulk frame")

/-- `Parser::finish`: fails when elements remain. -/
def finish : List Frame → Except ParserError Unit
  | [] => .ok ()
  | _ :: _ => .error (.other "protocol error; expected end of frame, but there was more")

/-- `str::to_lowercase` restricted to the ASCII range (`A`–`Z` map to
`a`–`z`, everything else is unchanged).  Rust's `to_lowercase` is
Unicode-aware; the special multi-byte lowercasings do not affect the
ASCII verbs `get`/`set` that the dispatcher compares against. -/
def asciiLower (s : List Nat) : List Nat :=
  s.map (fun b => if 65 ≤ b ∧ b ≤ 90 then b + 32 else b)

/-- `Command` from `src/connection/cmd/mod.rs`. -/
inductive Command where
  | get (key : List Nat)
  | set (key value : List Nat)
  | unknown (name : List Nat)

/-- `Command::from_frame`: build a parser over the array elements, read
and lowercase the verb, dispatch; an unrecognised verb returns
`Unknown(name)` early, skipping the `finish()` check. -/
def Command.fromFrame (f : Frame) : Except ParserError Command :=
  match f with
  | .array parts =>
    match nextString parts with
    | .error e => .error e
    | .ok (s, rest) =>
      let commandName := asciiLower s
      if commandName = ascii "get" then
        match nextString rest with
        | .error e => .error e
        | .ok (key, rest1) =>
          match finish rest1 with
          | .error e => .error e
          | .ok _ => .ok (.get key)
      else if commandName = ascii "set" then
        match nextString rest with
        | .error e => .error e
        | .ok (key, rest1) =>
          match nextBytes rest1 with
          | .error e => .error e
          | .ok (value, rest2) =>
            match finish rest2 with
            | .error e => .error e
            | .ok _ => .ok (.set key value)
      else .ok (.unknown commandName)
  | _ => .error (.other "protocol error; expected array, got another frame")

/-- The `KeyValueStore` trait (`get` / `set`; `shutdown_purge_task` is
irrelevant to dispatch), on the stores' successful paths. -/
structure KVStore (σ : Type) where
  get : List Nat → σ → Option (List Nat) × σ
  set : List Nat → List Nat → σ → σ

/-- `Command::apply`: each arm writes exactly one reply frame.  `Get`
replies `Bulk`/`Null`, `Set` replies `Simple("OK")`, `Unknown` replies
the error frame and never consults the store (its `apply` does not even
receive the store handle). -/
def Command.apply {σ : Type} (K : KVStore σ) (c : Command) (st : σ) :
    σ × List Frame :=
  match c with
  | .get key =>
    let r := K.get key st
    (r.2, [match r.1 with | some v => .bulk v | none => .null])
  | .set key value => (K.set key value st, [.simple (ascii "OK")])
  | .unknown name =>
    (st, [.error (ascii "ERR unknown command '" ++ name ++ ascii "'")])

/-! ## Metatheory of `Frame::check` (claim C3)

Characterisations of the cursor primitives, then three facts proved by
induction on the fuel: a successful `check` consumes at least one byte
and stays within the buffer; `check`'s outcome only depends on the bytes
below `len` (it never reads past the supplied buffer); and truncating
the buffer strictly inside the span of a successful `check` turns the
run into `Incomplete`. -/

theorem getU8_eq_ok {b : Buf} {pos : Nat} {x : Nat × Nat} :
    getU8 b pos = .ok x ↔ pos < b.len ∧ x = (b.mem pos, pos + 1) := by
  rw [getU8]
  by_cases h : pos < b.len
  · simp [h, eq_comm]
  · simp [h]

theorem getU8_eq_error {b : Buf} {pos : Nat} {e : FrameError} :
    getU8 b pos = .error e ↔ ¬ pos < b.len ∧ e = .incomplete := by
  rw [getU8]
  by_cases h : pos < b.len
  · simp [h]
  · simp [h, eq_comm]

theorem peekU8_eq_ok {b : Buf} {pos c : Nat} :
    peekU8 b pos = .ok c ↔ pos < b.len ∧ c = b.mem pos := by
  rw [peekU8]
  by_cases h : pos < b.len
  · simp [h, eq_comm]
  · simp [h]

theorem peekU8_eq_error {b : Buf} {pos : Nat} {e : FrameError} :
    peekU8 b pos = .error e ↔ ¬ pos < b.len ∧ e = .incomplete := by
  rw [peekU8]
  by_cases h : pos < b.len
  · simp [h]
  · simp [h, eq_comm]

theorem skip_eq_ok {b : Buf} {pos n q : Nat} :
    skip b pos n = .ok q ↔ ¬ b.len - pos < n ∧ q = pos + n := by
  rw [skip]
  by_cases h : b.len - pos < n
  · simp [h]
  · simp [h, eq_comm]

theorem skip_eq_error {b : Buf} {pos n : Nat} {e : FrameError} :
    skip b pos n = .error e ↔ b.len - pos < n ∧ e = .incomplete := by
  rw [skip]
  by_cases h : b.len - pos < n
  · simp [h, eq_comm]
  · simp [h]

theorem getLine_eq_ok {b : Buf} {pos : Nat} {line : List Nat} {p : Nat} :
    getLine b pos = .ok (line, p) ↔
      ∃ i, findLine b pos = some i ∧ line = extract b pos i ∧ p = i + 2 := by
  rw [getLine]
  cases h : findLine b pos with
  | none => simp
  | some i => simp [eq_comm, and_assoc]

theorem getLine_eq_error {b : Buf} {pos : Nat} {e : FrameError} :
    getLine b pos = .error e ↔ findLine b pos = none ∧ e = .incomplete := by
  rw [getLine]
  cases h : findLine b pos with
  | none => simp [eq_comm]
  | some i => simp

theorem getDecimal_eq_ok {b : Buf} {pos n p : Nat} :
    getDecimal b pos = .ok (n, p) ↔
      ∃ line, getLine b pos = .ok (line, p) ∧ atoiU64 line = some n := by
  rw [getDecimal]
  cases h : getLine b pos with
  | error e => simp
  | ok lp =>
    obtain ⟨line, p'⟩ := lp
    cases ha : atoiU64 line with
    | none => simp [ha]
    | some m =>
      simp only [ha]
      constructor
      · intro hh
        injection hh with hh
        injection hh with h1 h2
        subst h1
        subst h2
        exact ⟨line, rfl, ha⟩
      · rintro ⟨line', hl, ha'⟩
        injection hl with hl
        injection hl with h1 h2
        subst h1
        subst h2
        rw [ha] at ha'
        injection ha' with ha'
        subst ha'
        rfl

theorem getDecimal_eq_error {b : Buf} {pos : Nat} {e : FrameError} :
    getDecimal b pos = .error e ↔
      getLine b pos = .error e ∨
        ∃ line p, getLine b pos = .ok (line, p) ∧ atoiU64 line = none ∧
          e = .other "protocol error; invalid frame format" := by
  rw [getDecimal]
  cases h : getLine b pos with
  | error e' =>
    constructor
    · intro hh
      injection hh with hh
      exact Or.inl (by rw [hh])
    · rintro (hl | ⟨line, p, hl, -, -⟩)
      · injection hl with hl
        rw [hl]
      · exact Except.noConfusion hl
  | ok lp =>
    obtain ⟨line, p'⟩ := lp
    cases ha : atoiU64 line with
    | none =>
      simp only [ha]
      constructor
      · intro hh
        injection hh with hh
        exact Or.inr ⟨line, p', rfl, ha, by rw [hh]⟩
      · rintro (hl | ⟨line', p'', hl, ha', he⟩)
        · exact Except.noConfusion hl
        · rw [he]
    | some m =>
      simp only [ha]
      constructor
      · intro hh
        exact Except.noConfusion hh
      · rintro (hl | ⟨line', p'', hl, ha', he⟩)
        · exact Except.noConfusion hl
        · injection hl with hl
          injection hl with h1 h2
          rw [← h1, ha] at ha'
          exact Option.noConfusion ha'

theorem checkManyStep_ok_bounds (step : Nat → Option (Except FrameError Nat))
    (L : Nat) (hstep : ∀ pos p, step pos = some (.ok p) → pos < p ∧ p ≤ L) :
    ∀ n pos p, checkManyStep step n pos = some (.ok p) →
      pos ≤ p ∧ (p ≤ L ∨ p = pos) := by
  intro n
  induction n with
  | zero =>
    intro pos p h
    rw [checkManyStep] at h
    injection h with h
    injection h with h
    subst h
    exact ⟨le_refl _, Or.inr rfl⟩
  | succ n ihn =>
    intro pos p h
    rw [checkManyStep] at h
    cases hs : step pos with
    | none =>
      simp only [hs] at h
      exact Option.noConfusion h
    | some r =>
      cases r with
      | error e =>
        simp only [hs] at h
        exact absurd h (by simp)
      | ok q =>
        simp only [hs] at h
        have h1 := hstep pos q hs
        have h2 := ihn q p h
        rcases h2.2 with h3 | h3
        · exact ⟨by omega, Or.inl h3⟩
        · exact ⟨by omega, Or.inl (by omega)⟩

/-- A successful `check` consumes at least one byte and ends within the
buffer. -/
theorem checkF_ok_bounds : ∀ (fuel : Nat) (b : Buf) (pos p : Nat),
    checkF fuel b pos = some (.ok p) → pos < p ∧ p ≤ b.len := by
  intro fuel
  induction fuel with
  | zero =>
    intro b pos p h
    rw [checkF] at h
    exact Option.noConfusion h
  | succ fuel ih =>
    intro b pos p h
    rw [checkF] at h
    cases hg : getU8 b pos with
    | error e =>
      simp only [hg] at h
      exact absurd h (by simp)
    | ok cp =>
      obtain ⟨c, pos1⟩ := cp
      obtain ⟨hposlen, hcp⟩ := getU8_eq_ok.mp hg
      injection hcp with hc hpos1
      simp only [hg] at h
      by_cases h43 : c = 43 ∨ c = 45
      · rw [if_pos h43] at h
        cases hl : getLine b pos1 with
        | error e =>
          simp only [hl] at h
          exact absurd h (by simp)
        | ok lp =>
          obtain ⟨line, q⟩ := lp
          simp only [hl] at h
          injection h with h
          injection h with h
          subst h
          obtain ⟨i, hfi, -, hq⟩ := getLine_eq_ok.mp hl
          obtain ⟨hi1, hi2, -, -⟩ := findLine_eq_some.mp hfi
          omega
      · rw [if_neg h43] at h
        by_cases h58 : c = 58
        · rw [if_pos h58] at h
          cases hd : getDecimal b pos1 with
          | error e =>
            simp only [hd] at h
            exact absurd h (by simp)
          | ok np =>
            obtain ⟨m, q⟩ := np
            simp only [hd] at h
            injection h with h
            injection h with h
            subst h
            obtain ⟨line, hgl, -⟩ := getDecimal_eq_ok.mp hd
            obtain ⟨i, hfi, -, hq⟩ := getLine_eq_ok.mp hgl
            obtain ⟨hi1, hi2, -, -⟩ := findLine_eq_some.mp hfi
            omega
        · rw [if_neg h58] at h
          by_cases h36 : c = 36
          · rw [if_pos h36] at h
            cases hp : peekU8 b pos1 with
            | error e =>
              simp only [hp] at h
              exact absurd h (by simp)
            | ok cc =>
              simp only [hp] at h
              obtain ⟨hpos1len, -⟩ := peekU8_eq_ok.mp hp
              by_cases hcc : cc = 45
              · rw [if_pos hcc] at h
                injection h with h
                obtain ⟨hrem, hpp⟩ := skip_eq_ok.mp h
                omega
              · rw [if_neg hcc] at h
                cases hd : getDecimal b pos1 with
                | error e =>
                  simp only [hd] at h
                  exact absurd h (by simp)
                | ok np =>
                  obtain ⟨m, p2⟩ := np
                  simp only [hd] at h
                  injection h with h
                  obtain ⟨hrem, hpp⟩ := skip_eq_ok.mp h
                  obtain ⟨line, hgl, -⟩ := getDecimal_eq_ok.mp hd
                  obtain ⟨i, hfi, -, hq⟩ := getLine_eq_ok.mp hgl
                  obtain ⟨hi1, hi2, -, -⟩ := findLine_eq_some.mp hfi
                  omega
          · by_cases h42 : c = 42
            · rw [if_neg h36, if_pos h42] at h
              cases hd : getDecimal b pos1 with
              | error e =>
                simp only [hd] at h
                exact absurd h (by simp)
              | ok np =>
                obtain ⟨n, p2⟩ := np
                simp only [hd] at h
                obtain ⟨line, hgl, -⟩ := getDecimal_eq_ok.mp hd
                obtain ⟨i, hfi, -, hq⟩ := getLine_eq_ok.mp hgl
                obtain ⟨hi1, hi2, -, -⟩ := findLine_eq_some.mp hfi
                have hmany := checkManyStep_ok_bounds (checkF fuel b) b.len
                  (fun pos' p' hh => ih b pos' p' hh) n p2 p h
                rcases hmany.2 with h3 | h3 <;> omega
            · rw [if_neg h36, if_neg h42] at h
              exact absurd h (by simp)

theorem extract_congr {b b' : Buf} {lo hi : Nat}
    (h : ∀ k, lo ≤ k → k < hi → b.mem k = b'.mem k) :
    extract b lo hi = extract b' lo hi := by
  rw [extract, extract]
  apply List.map_congr_left
  intro j hj
  rw [List.mem_range] at hj
  exact h (lo + j) (by omega) (by omega)

theorem findLine_congr {b b' : Buf} (hlen : b.len = b'.len)
    (hag : ∀ i, i < b.len → b.mem i = b'.mem i) (q : Nat) :
    findLine b' q = findLine b q := by
  cases hfb : findLine b q with
  | some i =>
    obtain ⟨h1, h2, h3, h4⟩ := findLine_eq_some.mp hfb
    rw [findLine_eq_some]
    refine ⟨h1, by omega, ?_, ?_⟩
    · unfold crlfAt at h3 ⊢
      rw [← hag i (by omega), ← hag (i + 1) (by omega)]
      exact h3
    · intro k hk hk'
      unfold crlfAt
      rw [← hag k (by omega), ← hag (k + 1) (by omega)]
      exact h4 k hk hk'
  | none =>
    rw [findLine_eq_none] at hfb ⊢
    intro k hk hk'
    unfold crlfAt
    rw [← hag k (by omega), ← hag (k + 1) (by omega)]
    exact hfb k hk (by omega)

theorem getLine_congr {b b' : Buf} (hlen : b.len = b'.len)
    (hag : ∀ i, i < b.len → b.mem i = b'.mem i) (q : Nat) :
    getLine b' q = getLine b q := by
  rw [getLine, getLine, findLine_congr hlen hag q]
  cases hfb : findLine b q with
  | none => rfl
  | some i =>
    obtain ⟨h1, h2, -, -⟩ := findLine_eq_some.mp hfb
    show Except.ok (extract b' q i, i + 2) = Except.ok (extract b q i, i + 2)
    rw [extract_congr (fun k hk hk' => (hag k (by omega)).symm)]

theorem getDecimal_congr {b b' : Buf} (hlen : b.len = b'.len)
    (hag : ∀ i, i < b.len → b.mem i = b'.mem i) (q : Nat) :
    getDecimal b' q = getDecimal b q := by
  rw [getDecimal, getDecimal, getLine_congr hlen hag q]

theorem checkManyStep_congr {step step' : Nat → Option (Except FrameError Nat)}
    (hs : ∀ pos, step pos = step' pos) :
    ∀ n pos, checkManyStep step n pos = checkManyStep step' n pos := by
  intro n
  induction n with
  | zero => intro pos; rfl
  | succ n ihn =>
    intro pos
    rw [checkManyStep, checkManyStep, ← hs pos]
    cases hsp : step pos with
    | none => rfl
    | some r =>
      cases r with
      | error e => rfl
      | ok q => exact ihn q

/-- `check` never reads past the supplied buffer: its outcome depends
only on the `len` bytes below the buffer length, never on what lies at
or beyond it. -/
theorem checkF_congr : ∀ (fuel : Nat) (b b' : Buf) (pos : Nat),
    b.len = b'.len → (∀ i, i < b.len → b.mem i = b'.mem i) →
    checkF fuel b pos = checkF fuel b' pos := by
  intro fuel
  induction fuel with
  | zero => intro b b' pos _ _; rfl
  | succ fuel ih =>
    intro b b' pos hlen hag
    have hgu : getU8 b' pos = getU8 b pos := by
      rw [getU8, getU8, hlen]
      by_cases hp : pos < b'.len
      · rw [if_pos hp, if_pos hp, hag pos (by omega)]
      · rw [if_neg hp, if_neg hp]
    have hpeek : ∀ q, peekU8 b' q = peekU8 b q := by
      intro q
      rw [peekU8, peekU8, hlen]
      by_cases hp : q < b'.len
      · rw [if_pos hp, if_pos hp, hag q (by omega)]
      · rw [if_neg hp, if_neg hp]
    have hskip : ∀ q n, skip b' q n = skip b q n := by
      intro q n
      rw [skip, skip, hlen]
    have hgl : ∀ q, getLine b' q = getLine b q := getLine_congr hlen hag
    have hgd : ∀ q, getDecimal b' q = getDecimal b q := getDecimal_congr hlen hag
    have hmany : ∀ n q, checkManyStep (checkF fuel b') n q
        = checkManyStep (checkF fuel b) n q :=
      checkManyStep_congr (fun r => (ih b b' r hlen hag).symm)
    rw [checkF, checkF]
    simp only [hgu, hpeek, hskip, hgl, hgd, hmany]

theorem findLine_extend {b b' : Buf} {q i : Nat}
    (h : findLine b q = some i)
    (hag : ∀ k, k < i + 2 → b'.mem k = b.mem k) (hlen : i + 2 ≤ b'.len) :
    findLine b' q = some i := by
  obtain ⟨h1, h2, h3, h4⟩ := findLine_eq_some.mp h
  rw [findLine_eq_some]
  refine ⟨h1, by omega, ?_, ?_⟩
  · unfold crlfAt at h3 ⊢
    rw [hag i (by omega), hag (i + 1) (by omega)]
    exact h3
  · intro k hk hk'
    unfold crlfAt
    rw [hag k (by omega), hag (k + 1) (by omega)]
    exact h4 k hk hk'

theorem findLine_truncate {b b' : Buf} {q i m : Nat}
    (h : findLine b q = some i) (_hq : q ≤ m) (hm : m < i + 2)
    (hlen : b'.len = m) (hag : ∀ k, k < m → b'.mem k = b.mem k) :
    findLine b' q = none := by
  obtain ⟨h1, h2, h3, h4⟩ := findLine_eq_some.mp h
  rw [findLine_eq_none]
  intro k hk hk'
  unfold crlfAt
  rw [hag k (by omega), hag (k + 1) (by omega)]
  exact h4 k hk (by omega)

theorem getLine_extend {b b' : Buf} {q p : Nat} {line : List Nat}
    (h : getLine b q = .ok (line, p))
    (hag : ∀ k, k < p → b'.mem k = b.mem k) (hlen : p ≤ b'.len) :
    getLine b' q = .ok (line, p) := by
  obtain ⟨i, hfi, hline, hp⟩ := getLine_eq_ok.mp h
  subst hp
  have hfi' := findLine_extend hfi hag hlen
  obtain ⟨h1, -, -, -⟩ := findLine_eq_some.mp hfi
  rw [getLine, hfi']
  show Except.ok (extract b' q i, i + 2) = Except.ok (line, i + 2)
  rw [hline, extract_congr (fun k hk hk' => hag k (by omega))]

theorem getLine_truncate {b b' : Buf} {q p m : Nat} {line : List Nat}
    (h : getLine b q = .ok (line, p)) (hq : q ≤ m) (hm : m < p)
    (hlen : b'.len = m) (hag : ∀ k, k < m → b'.mem k = b.mem k) :
    getLine b' q = .error .incomplete := by
  obtain ⟨i, hfi, -, hp⟩ := getLine_eq_ok.mp h
  subst hp
  rw [getLine, findLine_truncate hfi hq hm hlen hag]

theorem getDecimal_extend {b b' : Buf} {q p n : Nat}
    (h : getDecimal b q = .ok (n, p))
    (hag : ∀ k, k < p → b'.mem k = b.mem k) (hlen : p ≤ b'.len) :
    getDecimal b' q = .ok (n, p) := by
  obtain ⟨line, hgl, ha⟩ := getDecimal_eq_ok.mp h
  rw [getDecimal, getLine_extend hgl hag hlen]
  show (match atoiU64 line with
    | some n => Except.ok (n, p)
    | none => Except.error (FrameError.other "protocol error; invalid frame format"))
      = Except.ok (n, p)
  rw [ha]

theorem getDecimal_truncate {b b' : Buf} {q p n m : Nat}
    (h : getDecimal b q = .ok (n, p)) (hq : q ≤ m) (hm : m < p)
    (hlen : b'.len = m) (hag : ∀ k, k < m → b'.mem k = b.mem k) :
    getDecimal b' q = .error .incomplete := by
  obtain ⟨line, hgl, -⟩ := getDecimal_eq_ok.mp h
  rw [getDecimal, getLine_truncate hgl hq hm hlen hag]

theorem checkManyStep_extend (fuel : Nat) (b b' : Buf) (p : Nat)
    (ihf : ∀ pos q, checkF fuel b pos = some (.ok q) →
      (∀ i, i < q → b'.mem i = b.mem i) → q ≤ b'.len →
      checkF fuel b' pos = some (.ok q))
    (hag : ∀ i, i < p → b'.mem i = b.mem i) (hplen : p ≤ b'.len) :
    ∀ n q, checkManyStep (checkF fuel b) n q = some (.ok p) →
      checkManyStep (checkF fuel b') n q = some (.ok p) := by
  intro n
  induction n with
  | zero => intro q h; exact h
  | succ n ihn =>
    intro q h
    rw [checkManyStep] at h ⊢
    cases hc : checkF fuel b q with
    | none =>
      simp only [hc] at h
      exact Option.noConfusion h
    | some r =>
      cases r with
      | error e =>
        simp only [hc] at h
        exact absurd h (by simp)
      | ok q1 =>
        simp only [hc] at h
        have hrest := checkManyStep_ok_bounds (checkF fuel b) b.len
          (fun a c hh => checkF_ok_bounds fuel b a c hh) n q1 p h
        have hc' := ihf q q1 hc (fun i hi => hag i (by omega)) (by omega)
        simp only [hc']
        exact ihn q1 h

/-- Extending (or replacing) the bytes at and beyond the end position of
a successful `check` run does not change the run. -/
theorem checkF_ok_extend : ∀ (fuel : Nat) (b b' : Buf) (pos p : Nat),
    checkF fuel b pos = some (.ok p) →
    (∀ i, i < p → b'.mem i = b.mem i) → p ≤ b'.len →
    checkF fuel b' pos = some (.ok p) := by
  intro fuel
  induction fuel with
  | zero =>
    intro b b' pos p h
    rw [checkF] at h
    exact fun _ _ => Option.noConfusion h
  | succ fuel ih =>
    intro b b' pos p h hag hplen
    have hb := checkF_ok_bounds (fuel + 1) b pos p h
    rw [checkF] at h ⊢
    cases hg : getU8 b pos with
    | error e =>
      simp only [hg] at h
      exact absurd h (by simp)
    | ok cp =>
      obtain ⟨c, pos1⟩ := cp
      obtain ⟨hposlen, hcp⟩ := getU8_eq_ok.mp hg
      injection hcp with hc hpos1
      have hg' : getU8 b' pos = .ok (c, pos1) := by
        rw [getU8_eq_ok]
        refine ⟨by omega, ?_⟩
        rw [hag pos (by omega), ← hc, ← hpos1]
      simp only [hg] at h
      simp only [hg']
      by_cases h43 : c = 43 ∨ c = 45
      · rw [if_pos h43] at h ⊢
        cases hl : getLine b pos1 with
        | error e =>
          simp only [hl] at h
          exact absurd h (by simp)
        | ok lp =>
          obtain ⟨line, q⟩ := lp
          simp only [hl] at h
          injection h with h
          injection h with h
          subst h
          simp only [getLine_extend hl hag hplen]
      · rw [if_neg h43] at h ⊢
        by_cases h58 : c = 58
        · rw [if_pos h58] at h ⊢
          cases hd : getDecimal b pos1 with
          | error e =>
            simp only [hd] at h
            exact absurd h (by simp)
          | ok np =>
            obtain ⟨v, q⟩ := np
            simp only [hd] at h
            injection h with h
            injection h with h
            subst h
            simp only [getDecimal_extend hd hag hplen]
        · rw [if_neg h58] at h ⊢
          by_cases h36 : c = 36
          · rw [if_pos h36] at h ⊢
            cases hp : peekU8 b pos1 with
            | error e =>
              simp only [hp] at h
              exact absurd h (by simp)
            | ok cc =>
              simp only [hp] at h
              obtain ⟨hpos1len, hccv⟩ := peekU8_eq_ok.mp hp
              by_cases hcc : cc = 45
              · rw [if_pos hcc] at h
                injection h with h
                obtain ⟨hrem, hpp⟩ := skip_eq_ok.mp h
                have hp' : peekU8 b' pos1 = .ok cc := by
                  rw [peekU8_eq_ok]
                  refine ⟨by omega, ?_⟩
                  rw [hag pos1 (by omega)]
                  exact hccv
                simp only [hp']
                rw [if_pos hcc]
                have hsk' : skip b' pos1 4 = .ok p := by
                  rw [skip_eq_ok]
                  omega
                rw [hsk']
              · rw [if_neg hcc] at h
                cases hd : getDecimal b pos1 with
                | error e =>
                  simp only [hd] at h
                  exact absurd h (by simp)
                | ok np =>
                  obtain ⟨v, p2⟩ := np
                  simp only [hd] at h
                  injection h with h
                  obtain ⟨hrem, hpp⟩ := skip_eq_ok.mp h
                  obtain ⟨line, hgl, -⟩ := getDecimal_eq_ok.mp hd
                  obtain ⟨i, hfi, -, hq⟩ := getLine_eq_ok.mp hgl
                  obtain ⟨hi1, hi2, -, -⟩ := findLine_eq_some.mp hfi
                  have hp' : peekU8 b' pos1 = .ok cc := by
                    rw [peekU8_eq_ok]
                    refine ⟨by omega, ?_⟩
                    rw [hag pos1 (by omega)]
                    exact hccv
                  have hd' : getDecimal b' pos1 = .ok (v, p2) :=
                    getDecimal_extend hd (fun k hk => hag k (by omega)) (by omega)
                  simp only [hp']
                  rw [if_neg hcc]
                  simp only [hd']
                  have hsk' : skip b' p2 ((v + 2) % 2 ^ 64) = .ok p := by
                    rw [skip_eq_ok]
                    omega
                  rw [hsk']
          · by_cases h42 : c = 42
            · rw [if_neg h36, if_pos h42] at h ⊢
              cases hd : getDecimal b pos1 with
              | error e =>
                simp only [hd] at h
                exact absurd h (by simp)
              | ok np =>
                obtain ⟨n, p2⟩ := np
                simp only [hd] at h
                obtain ⟨line, hgl, -⟩ := getDecimal_eq_ok.mp hd
                obtain ⟨i, hfi, -, hq⟩ := getLine_eq_ok.mp hgl
                obtain ⟨hi1, hi2, -, -⟩ := findLine_eq_some.mp hfi
                have hrest := checkManyStep_ok_bounds (checkF fuel b) b.len
                  (fun a c hh => checkF_ok_bounds fuel b a c hh) n p2 p h
                have hd' : getDecimal b' pos1 = .ok (n, p2) :=
                  getDecimal_extend hd (fun k hk => hag k (by omega)) (by omega)
                simp only [hd']
                exact checkManyStep_extend fuel b b' p (fun a c hh => ih b b' a c hh)
                  hag hplen n p2 h
            · rw [if_neg h36, if_neg h42] at h
              exact absurd h (by simp)

theorem checkManyStep_truncate (fuel : Nat) (b b' : Buf) (p m : Nat)
    (ihext : ∀ pos q, checkF fuel b pos = some (.ok q) →
      (∀ i, i < q → b'.mem i = b.mem i) → q ≤ b'.len →
      checkF fuel b' pos = some (.ok q))
    (ihtr : ∀ pos q, checkF fuel b pos = some (.ok q) → pos ≤ m → m < q →
      checkF fuel b' pos = some (.error .incomplete))
    (hag : ∀ i, i < m → b'.mem i = b.mem i) (hlen : b'.len = m) (hm : m < p) :
    ∀ n q, checkManyStep (checkF fuel b) n q = some (.ok p) → q ≤ m →
      checkManyStep (checkF fuel b') n q = some (.error .incomplete) := by
  intro n
  induction n with
  | zero =>
    intro q h hq
    rw [checkManyStep] at h
    injection h with h
    injection h with h
    omega
  | succ n ihn =>
    intro q h hq
    rw [checkManyStep] at h ⊢
    cases hc : checkF fuel b q with
    | none =>
      simp only [hc] at h
      exact Option.noConfusion h
    | some r =>
      cases r with
      | error e =>
        simp only [hc] at h
        exact absurd h (by simp)
      | ok q1 =>
        simp only [hc] at h
        by_cases hq1 : q1 ≤ m
        · have hc' := ihext q q1 hc (fun i hi => hag i (by omega)) (by omega)
          simp only [hc']
          exact ihn q1 h hq1
        · have hc' := ihtr q q1 hc hq (by omega)
          simp only [hc']

/-- Truncating the buffer strictly inside the span of a successful
`check` turns the run into `Incomplete`. -/
theorem checkF_ok_truncate : ∀ (fuel : Nat) (b b' : Buf) (pos p m : Nat),
    checkF fuel b pos = some (.ok p) → pos ≤ m → m < p → b'.len = m →
    (∀ i, i < m → b'.mem i = b.mem i) →
    checkF fuel b' pos = some (.error .incomplete) := by
  intro fuel
  induction fuel with
  | zero =>
    intro b b' pos p m h
    rw [checkF] at h
    exact absurd h (by simp)
  | succ fuel ih =>
    intro b b' pos p m h hpos hm hlen hag
    have hb := checkF_ok_bounds (fuel + 1) b pos p h
    rw [checkF] at h ⊢
    cases hg : getU8 b pos with
    | error e =>
      simp only [hg] at h
      exact absurd h (by simp)
    | ok cp =>
      obtain ⟨c, pos1⟩ := cp
      obtain ⟨hposlen, hcp⟩ := getU8_eq_ok.mp hg
      injection hcp with hc hpos1
      by_cases hpm : pos < m
      case neg =>
        -- `pos = m`: the very first byte is already past the truncation
        have hg' : getU8 b' pos = .error .incomplete := by
          rw [getU8_eq_error]
          exact ⟨by omega, rfl⟩
        simp only [hg']
      case pos =>
        have hg' : getU8 b' pos = .ok (c, pos1) := by
          rw [getU8_eq_ok]
          refine ⟨by omega, ?_⟩
          rw [hag pos (by omega), ← hc, ← hpos1]
        simp only [hg] at h
        simp only [hg']
        by_cases h43 : c = 43 ∨ c = 45
        · rw [if_pos h43] at h ⊢
          cases hl : getLine b pos1 with
          | error e =>
            simp only [hl] at h
            exact absurd h (by simp)
          | ok lp =>
            obtain ⟨line, q⟩ := lp
            simp only [hl] at h
            injection h with h
            injection h with h
            subst h
            simp only [getLine_truncate hl (by omega) (by omega) hlen hag]
        · rw [if_neg h43] at h ⊢
          by_cases h58 : c = 58
          · rw [if_pos h58] at h ⊢
            cases hd : getDecimal b pos1 with
            | error e =>
              simp only [hd] at h
              exact absurd h (by simp)
            | ok np =>
              obtain ⟨v, q⟩ := np
              simp only [hd] at h
              injection h with h
              injection h with h
              subst h
              simp only [getDecimal_truncate hd (by omega) (by omega) hlen hag]
          · rw [if_neg h58] at h ⊢
            by_cases h36 : c = 36
            · rw [if_pos h36] at h ⊢
              cases hp : peekU8 b pos1 with
              | error e =>
                simp only [hp] at h
                exact absurd h (by simp)
              | ok cc =>
                simp only [hp] at h
                obtain ⟨hpos1len, hccv⟩ := peekU8_eq_ok.mp hp
                by_cases hp1m : pos1 < m
                case neg =>
                  have hp' : peekU8 b' pos1 = .error .incomplete := by
                    rw [peekU8_eq_error]
                    exact ⟨by omega, rfl⟩
                  simp only [hp']
                case pos =>
                  have hp' : peekU8 b' pos1 = .ok cc := by
                    rw [peekU8_eq_ok]
                    refine ⟨by omega, ?_⟩
                    rw [hag pos1 (by omega)]
                    exact hccv
                  simp only [hp']
                  by_cases hcc : cc = 45
                  · rw [if_pos hcc] at h ⊢
                    injection h with h
                    obtain ⟨hrem, hpp⟩ := skip_eq_ok.mp h
                    have hsk' : skip b' pos1 4 = .error .incomplete := by
                      rw [skip_eq_error]
                      exact ⟨by omega, rfl⟩
                    rw [hsk']
                  · rw [if_neg hcc] at h ⊢
                    cases hd : getDecimal b pos1 with
                    | error e =>
                      simp only [hd] at h
                      exact absurd h (by simp)
                    | ok np =>
                      obtain ⟨v, p2⟩ := np
                      simp only [hd] at h
                      injection h with h
                      obtain ⟨hrem, hpp⟩ := skip_eq_ok.mp h
                      obtain ⟨line, hgl, -⟩ := getDecimal_eq_ok.mp hd
                      obtain ⟨i, hfi, -, hq⟩ := getLine_eq_ok.mp hgl
                      obtain ⟨hi1, hi2, -, -⟩ := findLine_eq_some.mp hfi
                      by_cases hp2m : p2 ≤ m
                      · have hd' : getDecimal b' pos1 = .ok (v, p2) :=
                          getDecimal_extend hd (fun k hk => hag k (by omega))
                            (by omega)
                        simp only [hd']
                        have hsk' : skip b' p2 ((v + 2) % 2 ^ 64)
                            = .error .incomplete := by
                          rw [skip_eq_error]
                          exact ⟨by omega, rfl⟩
                        rw [hsk']
                      · have hd' : getDecimal b' pos1 = .error .incomplete :=
                          getDecimal_truncate hd (by omega) (by omega) hlen hag
                        simp only [hd']
            · by_cases h42 : c = 42
              · rw [if_neg h36, if_pos h42] at h ⊢
                cases hd : getDecimal b pos1 with
                | error e =>
                  simp only [hd] at h
                  exact absurd h (by simp)
                | ok np =>
                  obtain ⟨n, p2⟩ := np
                  simp only [hd] at h
                  obtain ⟨line, hgl, -⟩ := getDecimal_eq_ok.mp hd
                  obtain ⟨i, hfi, -, hq⟩ := getLine_eq_ok.mp hgl
                  obtain ⟨hi1, hi2, -, -⟩ := findLine_eq_some.mp hfi
                  have hrest := checkManyStep_ok_bounds (checkF fuel b) b.len
                    (fun a c hh => checkF_ok_bounds fuel b a c hh) n p2 p h
                  by_cases hp2m : p2 ≤ m
                  · have hd' : getDecimal b' pos1 = .ok (n, p2) :=
                      getDecimal_extend hd (fun k hk => hag k (by omega)) (by omega)
                    simp only [hd']
                    exact checkManyStep_truncate fuel b b' p m
                      (checkF_ok_extend fuel b b')
                      (fun a c hh h1 h2 => ih b b' a c m hh h1 h2 hlen hag)
                      hag hlen hm n p2 h hp2m
                  · have hd' : getDecimal b' pos1 = .error .incomplete :=
                      getDecimal_truncate hd (by omega) (by omega) hlen hag
                    simp only [hd']
              · rw [if_neg h36, if_neg h42] at h
                exact absurd h (by simp)

theorem getU8_cons (c : Nat) (l : List Nat) :
    getU8 (bufOfList (c :: l)) 0 = .ok (c, 1) := by
  simp [getU8, bufOfList]

theorem peekU8_one (c d : Nat) (l : List Nat) :
    peekU8 (bufOfList (c :: d :: l)) 1 = .ok d := by
  simp [peekU8, bufOfList]

/-! ## Claim C3: prefixes of valid frames, and in-bounds reads -/

/-- C3: (1) for every byte string `l` that `check` accepts as exactly
one whole frame (consuming all of it), running `check` on any strict
prefix — the empty prefix included — returns the `Incomplete` error;
(2) during any run of `check` no byte position at or beyond the end of
the supplied buffer is ever consulted: the outcome is identical on any
buffer of the same length agreeing on the bytes below the length,
whatever lies at or past the end. -/
theorem check_prefix_incomplete_and_no_oob :
    (∀ (l : List Nat) (m fuel : Nat),
      checkF fuel (bufOfList l) 0 = some (.ok l.length) → m < l.length →
      checkF fuel (bufOfList (l.take m)) 0 = some (.error .incomplete)) ∧
    (∀ (fuel : Nat) (b b' : Buf) (pos : Nat), b.len = b'.len →
      (∀ i, i < b.len → b.mem i = b'.mem i) →
      checkF fuel b pos = checkF fuel b' pos) := by
  constructor
  · intro l m fuel h hm
    apply checkF_ok_truncate fuel (bufOfList l) (bufOfList (l.take m))
      0 l.length m h (by omega) hm
    · simp only [bufOfList, List.length_take]
      omega
    · intro i hi
      simp only [bufOfList]
      rw [List.getD_eq_getElem?_getD, List.getD_eq_getElem?_getD,
        List.getElem?_take, if_pos hi]
  · exact checkF_congr

/-- A buffer with the bytes of `+a\r\n` below length 4 and junk at
every position past the end. -/
def junkBuf : Buf := ⟨fun i => if i < 4 then (ascii "+a\r\n").getD i 0 else 99, 4⟩

/-- Witness for `check_prefix_incomplete_and_no_oob`: a two-byte strict
prefix of the valid frame `+a\r\n` checks as `Incomplete`, and the
check of the whole frame is unaffected by out-of-range junk bytes. -/
theorem check_prefix_incomplete_and_no_oob_witness :
    checkF 5 (bufOfList ((ascii "+a\r\n").take 2)) 0
        = some (.error .incomplete) ∧
      checkF 5 (bufOfList (ascii "+a\r\n")) 0 = checkF 5 junkBuf 0 := by
  constructor
  · exact check_prefix_incomplete_and_no_oob.1 (ascii "+a\r\n") 2 5 rfl (by decide)
  · exact check_prefix_incomplete_and_no_oob.2 5 (bufOfList (ascii "+a\r\n"))
      junkBuf 0 rfl (fun i hi => by
        show (ascii "+a\r\n").getD i 0 = junkBuf.mem i
        have hi4 : i < 4 := hi
        simp only [junkBuf, if_pos hi4])

/-! ## Claim C2: encode/parse round trip for non-array frames -/

/-- Invariants carried by the Rust types of a `Frame` value: `Simple` /
`Error` hold `String`s, hence valid UTF-8; `Integer` holds a `u64`;
`Bulk` holds a buffer whose `usize` length admits the `len + 2`
computation without overflow. -/
def frameTypeWF : Frame → Prop
  | .simple s => utf8Valid s = true
  | .error s => utf8Valid s = true
  | .integer n => n < 2 ^ 64
  | .bulk b => b.length + 2 < 2 ^ 64
  | .null => True
  | .array _ => True

/-- The amendment C2 needs: the `Simple` / `Error` payload must not
contain the byte pair `\r\n` (otherwise `get_line` terminates the line
early and the round trip truncates the string). -/
def frameStringsCrlfFree : Frame → Prop
  | .simple s => crlfFree s = true
  | .error s => crlfFree s = true
  | _ => True

/-- C2 (amended): for every non-`Array` frame whose `Simple`/`Error`
payload contains no `\r\n` pair, parsing the bytes produced by
`create_bytes` succeeds, consumes the whole encoding, and returns the
original frame.  (`Integer`, `Bulk`, `Null` round-trip without any
payload restriction.)  Any positive fuel runs identically since no
array recursion occurs. -/
theorem parse_createBytes_roundtrip (f : Frame) (hna : f.isArray = false)
    (hwf : frameTypeWF f) (hcr : frameStringsCrlfFree f) :
    ∃ enc, createBytes f = some enc ∧
      ∀ fuel, parseF (fuel + 1) (bufOfList enc) 0 = .out (.ok (f, enc.length)) := by
  cases f with
  | array elems => simp [Frame.isArray] at hna
  | simple s =>
    simp only [frameTypeWF] at hwf
    simp only [frameStringsCrlfFree] at hcr
    refine ⟨43 :: (s ++ crlf), rfl, fun fuel => ?_⟩
    have h1 := getU8_cons 43 (s ++ [13, 10])
    have hline := @getLine_header s 43 ([]) hcr
    simp only [crlf, parseF, h1]
    norm_num [hline, hwf]
  | error s =>
    simp only [frameTypeWF] at hwf
    simp only [frameStringsCrlfFree] at hcr
    refine ⟨45 :: (s ++ crlf), rfl, fun fuel => ?_⟩
    have h1 := getU8_cons 45 (s ++ [13, 10])
    have hline := @getLine_header s 45 ([]) hcr
    simp only [crlf, parseF, h1]
    norm_num [hline, hwf]
  | integer n =>
    simp only [frameTypeWF] at hwf
    refine ⟨58 :: (natToDigits n ++ crlf), rfl, fun fuel => ?_⟩
    have h1 := getU8_cons 58 (natToDigits n ++ [13, 10])
    have hdec := @getDecimal_header n 58 ([]) hwf
    simp only [crlf, parseF, h1]
    norm_num [hdec]
  | null =>
    refine ⟨[36, 45, 49, 13, 10], rfl, fun fuel => ?_⟩
    rw [parseF]
    simp [getU8, peekU8, getLine, findLine, findLineAux, bufOfList, extract]
    decide
  | bulk b =>
    simp only [frameTypeWF] at hwf
    refine ⟨36 :: (natToDigits b.length ++ 13 :: 10 :: (b ++ 13 :: 10 :: [])),
      by simp [createBytes, crlf], fun fuel => ?_⟩
    obtain ⟨d0, dt, hds⟩ := List.exists_cons_of_ne_nil (natToDigits_ne_nil b.length)
    have hd0 : 48 ≤ d0 ∧ d0 ≤ 57 := natToDigits_mem (by rw [hds]; simp)
    have h1 : getU8
        (bufOfList (36 :: (natToDigits b.length ++ 13 :: 10 :: (b ++ 13 :: 10 :: [])))) 0
        = .ok (36, 1) := getU8_cons 36 _
    have hpk : peekU8
        (bufOfList (36 :: (natToDigits b.length ++ 13 :: 10 :: (b ++ 13 :: 10 :: [])))) 1
        = .ok d0 := by
      rw [hds]
      exact peekU8_one 36 d0 _
    have hdec := @getDecimal_header b.length 36 (b ++ 13 :: 10 :: [])
      (by omega)
    have hmod : (b.length + 2) % 2 ^ 64 = b.length + 2 := Nat.mod_eq_of_lt hwf
    have hlenbuf : (bufOfList
        (36 :: (natToDigits b.length ++ 13 :: 10 :: (b ++ 13 :: 10 :: [])))).len
        = (natToDigits b.length).length + b.length + 5 := by
      simp [bufOfList]
      omega
    have hxt : extract
        (bufOfList (36 :: (natToDigits b.length ++ 13 :: 10 :: (b ++ 13 :: 10 :: []))))
        ((natToDigits b.length).length + 3)
        ((natToDigits b.length).length + 3 + b.length) = b := by
      have h2 := extract_append_middle (36 :: (natToDigits b.length ++ [13, 10]))
        b ([13, 10])
      have e1 : (36 :: (natToDigits b.length ++ [13, 10])) ++ b ++ [13, 10]
          = 36 :: (natToDigits b.length ++ 13 :: 10 :: (b ++ 13 :: 10 :: [])) := by
        simp
      have e2 : (36 :: (natToDigits b.length ++ [13, 10])).length
          = (natToDigits b.length).length + 3 := by
        simp
      rw [e1, e2] at h2
      exact h2
    simp only [parseF, h1, if_true]
    simp only [hpk]
    rw [if_neg (show ¬(d0 = 45) from by omega)]
    simp only [hdec, hmod, hlenbuf]
    rw [if_neg (show ¬((natToDigits b.length).length + b.length + 5
          - ((natToDigits b.length).length + 3) < b.length + 2) from by omega)]
    simp only [hxt]
    simp
    omega

/-- C2 counterexample: the claim as stated fails at
`Simple("\r\n")`.  Its encoding is `+\r\n\r\n`; `get_line` stops at the
first `\r\n`, so parsing returns `Simple("")` having consumed 3 of the
5 bytes — not the original frame. -/
theorem parse_createBytes_simple_crlf_cex :
    createBytes (.simple [13, 10]) = some [43, 13, 10, 13, 10] ∧
    parseF 6 (bufOfList [43, 13, 10, 13, 10]) 0 = .out (.ok (.simple [], 3)) ∧
    Frame.simple [] ≠ Frame.simple [13, 10] := by
  refine ⟨rfl, rfl, ?_⟩
  intro h
  injection h with h
  exact absurd h (by decide)

/-- Witness for `parse_createBytes_roundtrip` at the `Bulk("f")`
frame. -/
theorem parse_createBytes_roundtrip_witness :
    parseF 8 (bufOfList (ascii "$1\r\nf\r\n")) 0
      = .out (.ok (.bulk [102], 7)) := by
  obtain ⟨enc, h1, h2⟩ := parse_createBytes_roundtrip (.bulk [102]) rfl
    (by show 1 + 2 < 2 ^ 64; norm_num) trivial
  have he : enc = ascii "$1\r\nf\r\n" := by
    have h3 : some enc = some (ascii "$1\r\nf\r\n") := by
      rw [← h1]
      rfl
    injection h3
  have h4 := h2 7
  rw [he] at h4
  exact h4

/-! ## Claim C4: decimal lines and the `$-1` sentinel -/

theorem atoiU64_eq_none_of_nondigit {line : List Nat} {d : Nat}
    (hd : d ∈ line) (hnd : isDigitByte d = false) : atoiU64 line = none := by
  rw [atoiU64, if_neg]
  rintro ⟨-, hall, -⟩
  rw [List.all_eq_true] at hall
  rw [hall d hd] at hnd
  exact Bool.noConfusion hnd

/-- `get_decimal` on a header line that does not parse as a `u64`. -/
theorem getDecimal_header_bad {line : List Nat} (c : Nat) (rest : List Nat)
    (hc : crlfFree line = true) (hbad : atoiU64 line = none) :
    getDecimal (bufOfList (c :: (line ++ 13 :: 10 :: rest))) 1
      = .error (.other "protocol error; invalid frame format") := by
  simp only [getDecimal, getLine_header c rest hc, hbad]

/-- C4 (amended): integer decoding accepts only ASCII digit lines, with
the caveats the code forces.  (1) For `:` and `*` headers, a line
containing a non-digit byte (in particular any `-`-prefixed negative
number) makes both `check` and `parse` fail with the protocol error.
(2) The same holds for a `$` header whose line does not begin with `-`.
(3) For a `$` line beginning with `-`, `parse` fails unless the line is
exactly the `-1` null sentinel — but (4) `check` merely skips four bytes
after `$-` without validating them, accepting e.g. `$-9\r\n`, and (5)
`parse` accepts the exact `$-1\r\n` sentinel. -/
theorem check_parse_decimal_validation :
    (∀ c line rest, (c = 58 ∨ c = 42) → crlfFree line = true →
      (∃ d ∈ line, isDigitByte d = false) →
      ∀ fuel,
        checkF (fuel + 1) (bufOfList (c :: (line ++ 13 :: 10 :: rest))) 0
          = some (.error (.other "protocol error; invalid frame format")) ∧
        parseF (fuel + 1) (bufOfList (c :: (line ++ 13 :: 10 :: rest))) 0
          = .out (.error (.other "protocol error; invalid frame format"))) ∧
    (∀ line rest d0, line.head? = some d0 → d0 ≠ 45 → crlfFree line = true →
      (∃ d ∈ line, isDigitByte d = false) →
      ∀ fuel,
        checkF (fuel + 1) (bufOfList (36 :: (line ++ 13 :: 10 :: rest))) 0
          = some (.error (.other "protocol error; invalid frame format")) ∧
        parseF (fuel + 1) (bufOfList (36 :: (line ++ 13 :: 10 :: rest))) 0
          = .out (.error (.other "protocol error; invalid frame format"))) ∧
    (∀ line rest, line.head? = some 45 → crlfFree line = true → line ≠ [45, 49] →
      ∀ fuel,
        parseF (fuel + 1) (bufOfList (36 :: (line ++ 13 :: 10 :: rest))) 0
          = .out (.error (.other "protocol error; invalid frame format"))) ∧
    (∀ rest, 3 ≤ rest.length →
      ∀ fuel, checkF (fuel + 1) (bufOfList (36 :: 45 :: rest)) 0 = some (.ok 5)) ∧
    (∀ rest fuel,
      parseF (fuel + 1) (bufOfList (36 :: ([45, 49] ++ 13 :: 10 :: rest))) 0
        = .out (.ok (.null, 5))) := by
  have hmsg : ∀ (c : Nat) line rest, crlfFree line = true →
      (∃ d ∈ line, isDigitByte d = false) →
      getDecimal (bufOfList (c :: (line ++ 13 :: 10 :: rest))) 1
        = .error (.other "protocol error; invalid frame format") := by
    rintro c line rest hc ⟨d, hd, hnd⟩
    exact getDecimal_header_bad c rest hc (atoiU64_eq_none_of_nondigit hd hnd)
  refine ⟨?_, ?_, ?_, ?_, ?_⟩
  · rintro c line rest hc58 hcfree hbad fuel
    have h1 := getU8_cons c (line ++ 13 :: 10 :: rest)
    have hdec := hmsg c line rest hcfree hbad
    rcases hc58 with rfl | rfl
    · constructor
      · simp only [checkF, h1]
        norm_num [hdec]
      · simp only [parseF, h1]
        norm_num [hdec]
    · constructor
      · simp only [checkF, h1]
        norm_num [hdec]
      · simp only [parseF, h1]
        norm_num [hdec]
  · rintro line rest d0 hhead hd45 hcfree hbad fuel
    obtain ⟨tail, rfl⟩ : ∃ tail, line = d0 :: tail := by
      cases line with
      | nil => exact Option.noConfusion hhead
      | cons a t =>
        injection hhead with hhead
        exact ⟨t, by rw [hhead]⟩
    have h1 := getU8_cons 36 ((d0 :: tail) ++ 13 :: 10 :: rest)
    have hpk : peekU8 (bufOfList (36 :: ((d0 :: tail) ++ 13 :: 10 :: rest))) 1
        = .ok d0 := peekU8_one 36 d0 _
    have hdec := hmsg 36 (d0 :: tail) rest hcfree hbad
    simp only [List.cons_append] at hdec
    constructor
    · simp only [checkF, h1, if_true]
      simp only [hpk]
      rw [if_neg hd45]
      norm_num [hdec]
    · simp only [parseF, h1, if_true]
      simp only [hpk]
      rw [if_neg hd45]
      norm_num [hdec]
  · rintro line rest hhead hcfree hne fuel
    obtain ⟨tail, rfl⟩ : ∃ tail, line = 45 :: tail := by
      cases line with
      | nil => exact Option.noConfusion hhead
      | cons a t =>
        injection hhead with hhead
        exact ⟨t, by rw [hhead]⟩
    have h1 := getU8_cons 36 ((45 :: tail) ++ 13 :: 10 :: rest)
    have hpk : peekU8 (bufOfList (36 :: ((45 :: tail) ++ 13 :: 10 :: rest))) 1
        = .ok 45 := peekU8_one 36 45 _
    have hline := @getLine_header (45 :: tail) 36 rest hcfree
    simp only [List.cons_append] at hline
    simp only [parseF, h1, if_true]
    simp only [hpk]
    norm_num [hline, hne]
  · rintro rest hlen fuel
    have h1 := getU8_cons 36 (45 :: rest)
    have hpk : peekU8 (bufOfList (36 :: 45 :: rest)) 1 = .ok 45 :=
      peekU8_one 36 45 rest
    simp only [checkF, h1, if_true]
    simp only [hpk]
    norm_num [skip, bufOfList]
    omega
  · rintro rest fuel
    have h1 := getU8_cons 36 ([45, 49] ++ 13 :: 10 :: rest)
    have hpk : peekU8 (bufOfList (36 :: ([45, 49] ++ 13 :: 10 :: rest))) 1
        = .ok 45 := peekU8_one 36 45 _
    have hline := @getLine_header [45, 49] 36 rest (by decide)
    simp only [List.cons_append, List.nil_append] at hline
    simp only [parseF, h1, if_true]
    simp only [hpk]
    norm_num [hline]

/-- C4 counterexample: the claim as stated fails on the line `-9` under
a `$` header: `check("$-9\r\n")` returns `Ok` (it skips the four bytes
after `$` without validating them) instead of failing with a protocol
error. -/
theorem check_accepts_negative_bulk_header_cex :
    checkF 6 (bufOfList (ascii "$-9\r\n")) 0 = some (.ok 5) ∧
    ∀ e, checkF 6 (bufOfList (ascii "$-9\r\n")) 0 ≠ some (.error e) := by
  refine ⟨rfl, fun e h => ?_⟩
  rw [show checkF 6 (bufOfList (ascii "$-9\r\n")) 0 = some (.ok 5) from rfl] at h
  injection h with h
  exact Except.noConfusion h

/-- Witness for `check_parse_decimal_validation`: the negative integer
header `:-1\r\n` is rejected by both `check` and `parse`, and the
sentinel `$-1\r\n` still parses as `Null`. -/
theorem check_parse_decimal_validation_witness :
    (checkF 6 (bufOfList (ascii ":-1\r\n")) 0
      = some (.error (.other "protocol error; invalid frame format")) ∧
     parseF 6 (bufOfList (ascii ":-1\r\n")) 0
      = .out (.error (.other "protocol error; invalid frame format"))) ∧
    parseF 6 (bufOfList (ascii "$-1\r\n")) 0 = .out (.ok (.null, 5)) := by
  constructor
  · have h := check_parse_decimal_validation.1 58 [45, 49] []
      (Or.inl rfl) (by decide) ⟨45, by decide, rfl⟩ 5
    exact h
  · have h := (check_parse_decimal_validation.2.2.2.2) [] 5
    exact h

/-! ## Claims C10, C1, C9, C5 -/

/-- C10: `Frame::create_bytes` returns `Ok` for every frame that is not
an `Array` — the `io::Result` error branch is never taken, so under the
precondition that the argument is not an `Array` the function is total
and never fails — while calling it on any `Array` frame panics (the
`Array` arm is `unreachable!()`). -/
theorem createBytes_total_on_nonArray (f : Frame) :
    (f.isArray = false → (createBytes f).isSome = true) ∧
    (f.isArray = true → createBytes f = none) := by
  cases f <;> simp [createBytes, Frame.isArray]

/-- Witness for `createBytes_total_on_nonArray` at a non-array and an
array input. -/
theorem createBytes_total_on_nonArray_witness :
    (createBytes (Frame.simple [])).isSome = true ∧
      createBytes (Frame.array []) = none :=
  ⟨(createBytes_total_on_nonArray (Frame.simple [])).1 rfl,
   (createBytes_total_on_nonArray (Frame.array [])).2 rfl⟩

/-- C1 (code bug, evaluated at the failing input): on the append-log
`SimpleStore`, `set("foo", "bar")` followed by `get("foo")` returns
`Some("bar\n")` — `read_line` keeps the trailing newline of the record
and `get` never strips it — not the `Some("bar")` that the claim (and
the spec's round-trip law) requires. -/
theorem ssGet_after_ssSet_keeps_newline :
    ssGet (ssSet initSS (ascii "foo") (ascii "bar")) (ascii "foo")
        = .ok (some (ascii "bar" ++ [10])) ∧
      ssGet (ssSet initSS (ascii "foo") (ascii "bar")) (ascii "foo")
        ≠ .ok (some (ascii "bar")) := by
  constructor
  · rfl
  · intro h
    rw [show ssGet (ssSet initSS (ascii "foo") (ascii "bar")) (ascii "foo")
          = .ok (some (ascii "bar" ++ [10])) from rfl] at h
    simp [ascii] at h

/-- C9: `MiniRedis::get` is a pure read: it returns `Some` of the stored
bytes exactly when the key is present in `entries` — in particular for
an entry whose `expires_at` lies in the past, the stale value is still
returned, since no expiry filtering happens — `None` otherwise, and the
state (every field) is left unchanged. -/
theorem rGet_pure_read (s : RState) (key : List Nat) :
    (rGet key s).2 = s ∧
    (rGet key s).1 = (s.entries key).map Entry.data ∧
    (∀ e t, s.entries key = some e → e.expiresAt = some t →
      (rGet key s).1 = some e.data) := by
  refine ⟨rfl, rfl, ?_⟩
  intro e t he _
  simp [rGet, he]

/-- A concrete state whose single entry is already expired (instant 5)
while it is still present in `entries`. -/
def staleState : RState :=
  { entries := fun k => if k = [97] then some ⟨0, [98, 99], some 5⟩ else none,
    pubSub := fun _ => none,
    expirations := [((5, 0), [97])],
    nextId := 1,
    shutdown := false }

/-- Witness for `rGet_pure_read`: reading the expired-but-unpurged key
of `staleState` still returns the stale bytes and changes nothing. -/
theorem rGet_pure_read_witness :
    (rGet [97] staleState).2 = staleState ∧
      (rGet [97] staleState).1 = some [98, 99] :=
  ⟨(rGet_pure_read staleState [97]).1,
   (rGet_pure_read staleState [97]).2.2 ⟨0, [98, 99], some 5⟩ 5 rfl rfl⟩

/-- C5: a non-empty array frame whose first element is a string that is
not (case-insensitively) `get` or `set` dispatches to
`Ok(Unknown(name))` with the lowercased verb, no matter how many further
elements follow (the `finish()` check is skipped), and applying that
command against any store writes exactly one reply frame,
`Error("ERR unknown command '<name>'")`, leaving the store untouched. -/
theorem fromFrame_unknown_verb (f0 : Frame) (rest : List Frame) (s : List Nat)
    (hs : nextString (f0 :: rest) = .ok (s, rest))
    (hget : asciiLower s ≠ ascii "get") (hset : asciiLower s ≠ ascii "set") :
    Command.fromFrame (.array (f0 :: rest)) = .ok (.unknown (asciiLower s)) ∧
    ∀ (σ : Type) (K : KVStore σ) (st : σ),
      Command.apply K (.unknown (asciiLower s)) st
        = (st, [.error (ascii "ERR unknown command '" ++ asciiLower s ++ ascii "'")]) := by
  constructor
  · rw [Command.fromFrame, hs]
    simp only [if_neg hget, if_neg hset]
  · intro σ K st
    rfl

/-- A do-nothing store used to instantiate the witness. -/
def unitStore : KVStore Unit where
  get _ _ := (none, ())
  set _ _ _ := ()

/-- Witness for `fromFrame_unknown_verb`: the verb `PING` with two
trailing arguments becomes `Unknown("ping")` and replies with the single
error frame. -/
theorem fromFrame_unknown_verb_witness :
    Command.fromFrame
        (.array [.simple (ascii "PING"), .simple [], .simple []])
      = .ok (.unknown (ascii "ping")) ∧
    Command.apply unitStore (.unknown (ascii "ping")) ()
      = ((), [.error (ascii "ERR unknown command 'ping'")]) := by
  have h := fromFrame_unknown_verb (.simple (ascii "PING")) [.simple [], .simple []]
    (ascii "PING") rfl (by decide) (by decide)
  refine ⟨?_, ?_⟩
  · have h1 := h.1
    rw [show asciiLower (ascii "PING") = ascii "ping" from by decide] at h1
    exact h1
  · have h2 := h.2 Unit unitStore ()
    rw [show asciiLower (ascii "PING") = ascii "ping" from by decide] at h2
    rw [show ascii "ERR unknown command '" ++ ascii "ping" ++ ascii "'"
          = ascii "ERR unknown command 'ping'" from by decide] at h2
    exact h2

/-! ## Claim C8: `purge_expired_keys` -/

/-- The representation invariant of the `BTreeMap`: the association
list is sorted in strictly increasing `(Instant, id)` key order. -/
def expSorted (l : List ((Nat × Nat) × List Nat)) : Prop :=
  l.Pairwise (fun a b => pairLt a.1 b.1)

theorem purgeLoop_spec (now : Nat) :
    ∀ (exps : List ((Nat × Nat) × List Nat)) (entries : List Nat → Option Entry),
      expSorted exps →
      (purgeLoop now exps entries).2.1
          = exps.filter (fun q => decide (now < q.1.1)) ∧
      (∀ k, (purgeLoop now exps entries).2.2 k
          = if exps.any (fun q => decide (q.1.1 ≤ now) && decide (q.2 = k))
            then none else entries k) ∧
      (purgeLoop now exps entries).1
          = (exps.filter (fun q => decide (now < q.1.1))).head?.map
              (fun q => q.1.1) := by
  intro exps
  induction exps with
  | nil =>
    intro entries _
    refine ⟨rfl, fun k => ?_, rfl⟩
    simp [purgeLoop]
  | cons hd rest ih =>
    obtain ⟨⟨when, id⟩, key⟩ := hd
    intro entries hsorted
    have hsrest : expSorted rest := (List.pairwise_cons.mp hsorted).2
    have hhd := (List.pairwise_cons.mp hsorted).1
    by_cases hnow : now < when
    · rw [show purgeLoop now (((when, id), key) :: rest) entries
          = (some when, ((when, id), key) :: rest, entries)
          from by rw [purgeLoop, if_pos hnow]]
      have hfilter : (((when, id), key) :: rest).filter
          (fun q => decide (now < q.1.1)) = ((when, id), key) :: rest := by
        rw [List.filter_eq_self]
        intro q hq
        rcases List.mem_cons.mp hq with rfl | hq
        · simp [hnow]
        · have h2 := hhd q hq
          simp only [pairLt] at h2
          simp only [decide_eq_true_eq]
          rcases h2 with h2 | ⟨h2, -⟩ <;> omega
      refine ⟨hfilter.symm, fun k => ?_, ?_⟩
      · rw [if_neg]
        simp only [List.any_eq_true, not_exists]
        intro q hq
        obtain ⟨hqm, hq2⟩ := hq
        rcases List.mem_cons.mp hqm with rfl | hqm
        · simp at hq2
          omega
        · have h2 := hhd q hqm
          simp only [pairLt] at h2
          simp only [Bool.and_eq_true, decide_eq_true_eq] at hq2
          rcases h2 with h2 | ⟨h2, -⟩ <;> omega
      · rw [hfilter]
        rfl
    · rw [show purgeLoop now (((when, id), key) :: rest) entries
          = purgeLoop now rest (fun k => if k = key then none else entries k)
          from by rw [purgeLoop, if_neg hnow]]
      obtain ⟨ih1, ih2, ih3⟩ := ih (fun k => if k = key then none else entries k)
        hsrest
      have hfilter : (((when, id), key) :: rest).filter
          (fun q => decide (now < q.1.1))
          = rest.filter (fun q => decide (now < q.1.1)) := by
        rw [List.filter_cons_of_neg]
        simpa using hnow
      refine ⟨by rw [ih1, hfilter], fun k => ?_, by rw [ih3, hfilter]⟩
      rw [ih2 k]
      have hw : when ≤ now := by omega
      by_cases hk : k = key
      · subst hk
        by_cases hrest : rest.any (fun q => decide (q.1.1 ≤ now) && decide (q.2 = k))
        · rw [if_pos hrest, if_pos]
          simp only [List.any_cons, Bool.or_eq_true]
          exact Or.inr hrest
        · rw [if_neg hrest, if_pos rfl, if_pos]
          simp only [List.any_cons, Bool.or_eq_true, Bool.and_eq_true,
            decide_eq_true_eq]
          simp
          exact Or.inl hw
      · have hkk : ¬ key = k := fun hh => hk hh.symm
        by_cases hrest : rest.any (fun q => decide (q.1.1 ≤ now) && decide (q.2 = k))
        · rw [if_pos hrest, if_pos]
          simp only [List.any_cons, Bool.or_eq_true]
          exact Or.inr hrest
        · rw [if_neg hrest, if_neg hk, if_neg]
          simp only [List.any_cons, Bool.or_eq_true, Bool.and_eq_true,
            decide_eq_true_eq]
          rintro (⟨-, hh⟩ | hh)
          · exact hkk hh
          · rw [hh] at hrest
            exact hrest rfl

/-- C8: with the expirations map sorted (its `BTreeMap` representation
invariant), one run of `purge_expired_keys` at clock `now`: under the
shutdown flag returns `None` and changes nothing; otherwise it removes
exactly the expiration tuples with `when ≤ now`, removes exactly the
keys of those tuples from `entries`, leaves every other field unchanged,
and returns `Some` of the smallest expiration instant still remaining
(`None` when none remain). -/
theorem purgeExpiredKeys_spec (now : Nat) (s : RState)
    (hs : expSorted s.expirations) :
    (s.shutdown = true → purgeExpiredKeys now s = (none, s)) ∧
    (s.shutdown = false →
      (purgeExpiredKeys now s).2.expirations
          = s.expirations.filter (fun q => decide (now < q.1.1)) ∧
      (∀ k, (purgeExpiredKeys now s).2.entries k
          = if s.expirations.any (fun q => decide (q.1.1 ≤ now) && decide (q.2 = k))
            then none else s.entries k) ∧
      (purgeExpiredKeys now s).1
          = (s.expirations.filter (fun q => decide (now < q.1.1))).head?.map
              (fun q => q.1.1) ∧
      (∀ q ∈ s.expirations.filter (fun q => decide (now < q.1.1)),
        ∀ w, (purgeExpiredKeys now s).1 = some w → w ≤ q.1.1) ∧
      (purgeExpiredKeys now s).2.nextId = s.nextId ∧
      (purgeExpiredKeys now s).2.shutdown = s.shutdown ∧
      (purgeExpiredKeys now s).2.pubSub = s.pubSub) := by
  constructor
  · intro hsh
    rw [purgeExpiredKeys, if_pos hsh]
  · intro hsh
    have hne : ¬ s.shutdown = true := by rw [hsh]; exact Bool.noConfusion
    obtain ⟨h1, h2, h3⟩ := purgeLoop_spec now s.expirations s.entries hs
    rw [purgeExpiredKeys, if_neg hne]
    refine ⟨h1, h2, h3, ?_, rfl, rfl, rfl⟩
    intro q hq w hw
    rw [h3] at hw
    have hkept : expSorted (s.expirations.filter (fun q => decide (now < q.1.1))) :=
      List.Pairwise.filter _ hs
    rcases hfk : s.expirations.filter (fun q => decide (now < q.1.1)) with _ | ⟨q0, t⟩
    · rw [hfk] at hq
      exact absurd hq (List.not_mem_nil q)
    · rw [hfk] at hw hq
      simp only [List.head?] at hw
      injection hw with hw
      subst hw
      show q0.1.1 ≤ q.1.1
      rcases List.mem_cons.mp hq with rfl | hq
      · exact le_refl _
      · rw [hfk] at hkept
        have h3 := (List.pairwise_cons.mp hkept).1 q hq
        simp only [pairLt] at h3
        rcases h3 with h3 | ⟨h3, -⟩ <;> omega

/-- Witness for `purgeExpiredKeys_spec`: purging `staleState` (one
entry expired at instant 5) at clock 10 empties both maps and reports
no next expiration. -/
theorem purgeExpiredKeys_spec_witness :
    (purgeExpiredKeys 10 staleState).2.expirations = [] ∧
    (purgeExpiredKeys 10 staleState).2.entries [97] = none ∧
    (purgeExpiredKeys 10 staleState).1 = none := by
  have hs : expSorted staleState.expirations := by
    simp [expSorted, staleState]
  have h := (purgeExpiredKeys_spec 10 staleState hs).2 (by decide)
  exact ⟨h.1.trans (by decide), (h.2.1 [97]).trans (by decide),
    h.2.2.1.trans (by decide)⟩


/-! ## Claim C6: the entries/expirations linkage invariant -/

theorem pairLt_trichotomy (a b : Nat × Nat) : pairLt a b ∨ a = b ∨ pairLt b a := by
  rw [pairLt, pairLt]
  rcases a with ⟨a1, a2⟩
  rcases b with ⟨b1, b2⟩
  simp only [Prod.mk.injEq]
  omega

theorem pairLt_trans {a b c : Nat × Nat} (h1 : pairLt a b) (h2 : pairLt b c) :
    pairLt a c := by
  rw [pairLt] at *
  omega

theorem pairLt_irrefl (a : Nat × Nat) : ¬ pairLt a a := by
  rw [pairLt]
  omega

theorem expInsert_mem {key : Nat × Nat} {v : List Nat}
    {l : List ((Nat × Nat) × List Nat)} (hs : expSorted l) (q : (Nat × Nat) × List Nat) :
    q ∈ expInsert key v l ↔ q = (key, v) ∨ (q ∈ l ∧ q.1 ≠ key) := by
  induction l with
  | nil =>
    rw [expInsert]
    simp
  | cons hd rest ih =>
    obtain ⟨k', v'⟩ := hd
    have hsrest : expSorted rest := (List.pairwise_cons.mp hs).2
    have hhd := (List.pairwise_cons.mp hs).1
    rw [expInsert]
    by_cases hlt : pairLt key k'
    · rw [if_pos hlt]
      constructor
      · intro hq
        rcases List.mem_cons.mp hq with rfl | hq
        · exact Or.inl rfl
        · rcases List.mem_cons.mp hq with rfl | hq
          · refine Or.inr ⟨List.mem_cons_self _ _, ?_⟩
            intro hh
            change k' = key at hh
            rw [hh] at hlt
            exact pairLt_irrefl key hlt
          · refine Or.inr ⟨List.mem_cons_of_mem _ hq, ?_⟩
            intro hh
            have := pairLt_trans hlt (hhd q hq)
            rw [hh] at this
            exact pairLt_irrefl key this
      · rintro (rfl | ⟨hq, hne⟩)
        · exact List.mem_cons_self _ _
        · exact List.mem_cons_of_mem _ hq
    · rw [if_neg hlt]
      by_cases heq : key = k'
      · rw [if_pos heq]
        subst heq
        constructor
        · intro hq
          rcases List.mem_cons.mp hq with rfl | hq
          · exact Or.inl rfl
          · refine Or.inr ⟨List.mem_cons_of_mem _ hq, ?_⟩
            intro hh
            have := hhd q hq
            rw [hh] at this
            exact pairLt_irrefl key this
        · rintro (rfl | ⟨hq, hne⟩)
          · exact List.mem_cons_self _ _
          · rcases List.mem_cons.mp hq with rfl | hq
            · exact absurd rfl hne
            · exact List.mem_cons_of_mem _ hq
      · rw [if_neg heq]
        constructor
        · intro hq
          rcases List.mem_cons.mp hq with rfl | hq
          · refine Or.inr ⟨List.mem_cons_self _ _, ?_⟩
            intro hh
            exact heq hh.symm
          · rcases (ih hsrest).mp hq with rfl | ⟨hq2, hne⟩
            · exact Or.inl rfl
            · exact Or.inr ⟨List.mem_cons_of_mem _ hq2, hne⟩
        · rintro (rfl | ⟨hq, hne⟩)
          · exact List.mem_cons_of_mem _ ((ih hsrest).mpr (Or.inl rfl))
          · rcases List.mem_cons.mp hq with rfl | hq
            · exact List.mem_cons_self _ _
            · exact List.mem_cons_of_mem _ ((ih hsrest).mpr (Or.inr ⟨hq, hne⟩))

theorem expInsert_sorted {key : Nat × Nat} {v : List Nat}
    {l : List ((Nat × Nat) × List Nat)} (hs : expSorted l) :
    expSorted (expInsert key v l) := by
  induction l with
  | nil =>
    rw [expInsert]
    exact List.pairwise_singleton _ _
  | cons hd rest ih =>
    obtain ⟨k', v'⟩ := hd
    have hsrest : expSorted rest := (List.pairwise_cons.mp hs).2
    have hhd := (List.pairwise_cons.mp hs).1
    rw [expInsert]
    by_cases hlt : pairLt key k'
    · rw [if_pos hlt]
      rw [expSorted, List.pairwise_cons]
      refine ⟨?_, hs⟩
      intro q hq
      rcases List.mem_cons.mp hq with rfl | hq
      · exact hlt
      · exact pairLt_trans hlt (hhd q hq)
    · rw [if_neg hlt]
      by_cases heq : key = k'
      · rw [if_pos heq]
        subst heq
        rw [expSorted, List.pairwise_cons]
        exact ⟨hhd, hsrest⟩
      · rw [if_neg heq]
        rw [expSorted, List.pairwise_cons]
        refine ⟨?_, ih hsrest⟩
        intro q hq
        rcases (expInsert_mem hsrest q).mp hq with rfl | ⟨hq2, -⟩
        · rcases pairLt_trichotomy key k' with h | h | h
          · exact absurd h hlt
          · exact absurd h heq
          · exact h
        · exact hhd q hq2

theorem expRemove_sublist (key : Nat × Nat) (l : List ((Nat × Nat) × List Nat)) :
    (expRemove key l).Sublist l := by
  induction l with
  | nil => rw [expRemove]
  | cons hd rest ih =>
    obtain ⟨k', v'⟩ := hd
    rw [expRemove]
    by_cases heq : key = k'
    · rw [if_pos heq]
      exact List.sublist_cons_self _ _
    · rw [if_neg heq]
      exact List.Sublist.cons₂ _ ih

theorem expRemove_sorted {key : Nat × Nat} {l : List ((Nat × Nat) × List Nat)}
    (hs : expSorted l) : expSorted (expRemove key l) :=
  List.Pairwise.sublist (expRemove_sublist key l) hs

theorem expRemove_mem {key : Nat × Nat} {l : List ((Nat × Nat) × List Nat)}
    (hs : expSorted l) (q : (Nat × Nat) × List Nat) :
    q ∈ expRemove key l ↔ q ∈ l ∧ q.1 ≠ key := by
  induction l with
  | nil =>
    rw [expRemove]
    simp
  | cons hd rest ih =>
    obtain ⟨k', v'⟩ := hd
    have hsrest : expSorted rest := (List.pairwise_cons.mp hs).2
    have hhd := (List.pairwise_cons.mp hs).1
    rw [expRemove]
    by_cases heq : key = k'
    · rw [if_pos heq]
      subst heq
      constructor
      · intro hq
        refine ⟨List.mem_cons_of_mem _ hq, ?_⟩
        intro hh
        have := hhd q hq
        rw [hh] at this
        exact pairLt_irrefl key this
      · rintro ⟨hq, hne⟩
        rcases List.mem_cons.mp hq with rfl | hq
        · exact absurd rfl hne
        · exact hq
    · rw [if_neg heq]
      constructor
      · intro hq
        rcases List.mem_cons.mp hq with rfl | hq
        · exact ⟨List.mem_cons_self _ _, fun hh => heq hh.symm⟩
        · obtain ⟨hq2, hne⟩ := (ih hsrest).mp hq
          exact ⟨List.mem_cons_of_mem _ hq2, hne⟩
      · rintro ⟨hq, hne⟩
        rcases List.mem_cons.mp hq with rfl | hq
        · exact List.mem_cons_self _ _
        · exact List.mem_cons_of_mem _ ((ih hsrest).mpr ⟨hq, hne⟩)

/-- The strengthened state invariant of the in-memory store: the
expirations list is sorted (`BTreeMap`), ids are below `next_id` and
distinct across entries, and the two maps are linked in both
directions. -/
structure RInv (s : RState) : Prop where
  sorted : expSorted s.expirations
  idE : ∀ k e, s.entries k = some e → e.id < s.nextId
  idX : ∀ q ∈ s.expirations, q.1.2 < s.nextId
  idInj : ∀ k k' e e', s.entries k = some e → s.entries k' = some e' →
    e.id = e'.id → k = k'
  link1 : ∀ k e t, s.entries k = some e → e.expiresAt = some t →
    ((t, e.id), k) ∈ s.expirations
  link2 : ∀ w i k, ((w, i), k) ∈ s.expirations →
    ∃ e, s.entries k = some e ∧ e.expiresAt = some w ∧ e.id = i

theorem RInv_init : RInv initRState := by
  refine ⟨?_, ?_, ?_, ?_, ?_, ?_⟩ <;> intros <;> simp_all [initRState, expSorted]

theorem expInsert_mem_fresh {key : Nat × Nat} {v : List Nat}
    {l : List ((Nat × Nat) × List Nat)} (hs : expSorted l)
    (hfresh : ∀ q ∈ l, q.1 ≠ key) (q : (Nat × Nat) × List Nat) :
    q ∈ expInsert key v l ↔ q = (key, v) ∨ q ∈ l := by
  rw [expInsert_mem hs]
  constructor
  · rintro (rfl | ⟨hq, -⟩)
    · exact Or.inl rfl
    · exact Or.inr hq
  · rintro (rfl | hq)
    · exact Or.inl rfl
    · exact Or.inr ⟨hq, hfresh q hq⟩

theorem expSorted_countP {l : List ((Nat × Nat) × List Nat)} (hs : expSorted l)
    {q : (Nat × Nat) × List Nat} (hq : q ∈ l) :
    l.countP (fun r => decide (r.1 = q.1)) = 1 := by
  induction l with
  | nil => cases hq
  | cons hd rest ih =>
    have hsrest : expSorted rest := (List.pairwise_cons.mp hs).2
    have hhd := (List.pairwise_cons.mp hs).1
    rcases List.mem_cons.mp hq with rfl | hq
    · rw [List.countP_cons]
      have h0 : rest.countP (fun r => decide (r.1 = q.1)) = 0 := by
        rw [List.countP_eq_zero]
        intro r hr
        simp only [decide_eq_true_eq]
        intro hr1
        have hlt := hhd r hr
        rw [hr1] at hlt
        exact pairLt_irrefl q.1 hlt
      rw [h0]
      simp
    · rw [List.countP_cons, ih hsrest hq]
      have hne : ¬ (hd.1 = q.1) := by
        intro hh
        have hlt := hhd q hq
        rw [hh] at hlt
        exact pairLt_irrefl q.1 hlt
      simp [hne]

/-- The three shapes of the post-`set` expirations list, split on the
previously stored entry. -/
theorem setState_expirations_none (now : Nat) (key value : List Nat) {s : RState}
    (hk : s.entries key = none) :
    (setState now key value s).expirations
      = expInsert (now + defaultTTLMillis, s.nextId) key s.expirations := by
  simp only [setState, setEntry, hk]

theorem setState_expirations_noexp (now : Nat) (key value : List Nat) {s : RState}
    {pe : Entry} (hk : s.entries key = some pe) (hw : pe.expiresAt = none) :
    (setState now key value s).expirations
      = expInsert (now + defaultTTLMillis, s.nextId) key s.expirations := by
  simp only [setState, setEntry, hk, hw]

theorem setState_expirations_some (now : Nat) (key value : List Nat) {s : RState}
    {pe : Entry} {w : Nat} (hk : s.entries key = some pe)
    (hw : pe.expiresAt = some w) :
    (setState now key value s).expirations
      = expRemove (w, pe.id)
          (expInsert (now + defaultTTLMillis, s.nextId) key s.expirations) := by
  simp only [setState, setEntry, hk, hw]

/-- Common core of the `set` preservation proof: any state whose fields
have the shape produced by `setEntry`, with `keep` describing which old
tuples survive the replaced-entry removal, satisfies the invariant. -/
theorem RInv_set_core {s sn : RState} (hinv : RInv s)
    (now : Nat) (key value : List Nat) (keep : Nat × Nat → Prop)
    (hent : ∀ k, sn.entries k
        = if k = key then some ⟨s.nextId, value, some (now + defaultTTLMillis)⟩
          else s.entries k)
    (hnid : sn.nextId = s.nextId + 1)
    (hsorted : expSorted sn.expirations)
    (hmemE : ∀ q, q ∈ sn.expirations ↔
        q = ((now + defaultTTLMillis, s.nextId), key)
          ∨ (q ∈ s.expirations ∧ keep q.1))
    (hkeep : ∀ k e t, s.entries k = some e → e.expiresAt = some t → k ≠ key →
        keep (t, e.id))
    (hprev : ∀ e, s.entries key = some e → ∀ w, e.expiresAt = some w →
        ¬ keep (w, e.id)) :
    RInv sn := by
  constructor
  · exact hsorted
  · intro k e he
    rw [hent k] at he
    rw [hnid]
    by_cases hkk : k = key
    · rw [if_pos hkk] at he
      have h1 : e = ⟨s.nextId, value, some (now + defaultTTLMillis)⟩ :=
        (Option.some.inj he).symm
      subst h1
      show s.nextId < s.nextId + 1
      omega
    · rw [if_neg hkk] at he
      have := hinv.idE k e he
      omega
  · intro q hq
    rw [hnid]
    rcases (hmemE q).mp hq with rfl | ⟨hq2, -⟩
    · show s.nextId < s.nextId + 1
      omega
    · have := hinv.idX q hq2
      omega
  · intro k k' e e' he he' hid
    rw [hent k] at he
    rw [hent k'] at he'
    by_cases hkk : k = key <;> by_cases hkk' : k' = key
    · rw [hkk, hkk']
    · rw [if_pos hkk] at he
      rw [if_neg hkk'] at he'
      have h1 : e = ⟨s.nextId, value, some (now + defaultTTLMillis)⟩ :=
        (Option.some.inj he).symm
      have h2 := hinv.idE k' e' he'
      rw [h1] at hid
      exfalso
      have h3 : s.nextId = Entry.id e' := hid
      omega
    · rw [if_neg hkk] at he
      rw [if_pos hkk'] at he'
      have h1 : e' = ⟨s.nextId, value, some (now + defaultTTLMillis)⟩ :=
        (Option.some.inj he').symm
      have h2 := hinv.idE k e he
      rw [h1] at hid
      exfalso
      have h3 : Entry.id e = s.nextId := hid
      omega
    · rw [if_neg hkk] at he
      rw [if_neg hkk'] at he'
      exact hinv.idInj k k' e e' he he' hid
  · intro k e t he hexp
    rw [hent k] at he
    by_cases hkk : k = key
    · rw [if_pos hkk] at he
      have h1 : e = ⟨s.nextId, value, some (now + defaultTTLMillis)⟩ :=
        (Option.some.inj he).symm
      subst h1
      have ht : t = now + defaultTTLMillis := (Option.some.inj hexp).symm
      subst ht hkk
      exact (hmemE _).mpr (Or.inl rfl)
    · rw [if_neg hkk] at he
      have hmemold := hinv.link1 k e t he hexp
      exact (hmemE _).mpr (Or.inr ⟨hmemold, hkeep k e t he hexp hkk⟩)
  · intro w i k hq
    rcases (hmemE _).mp hq with heq | ⟨hold, hkp⟩
    · rw [Prod.mk.injEq, Prod.mk.injEq] at heq
      obtain ⟨⟨rfl, rfl⟩, rfl⟩ := heq
      refine ⟨⟨s.nextId, value, some (now + defaultTTLMillis)⟩, ?_, rfl, rfl⟩
      rw [hent _, if_pos rfl]
    · obtain ⟨e0, he0, hx0, hi0⟩ := hinv.link2 w i k hold
      by_cases hkk : k = key
      · exfalso
        subst hkk
        exact hprev e0 he0 w hx0 (by rw [hi0]; exact hkp)
      · refine ⟨e0, ?_, hx0, hi0⟩
        rw [hent k, if_neg hkk]
        exact he0

/-- `set` preserves the invariant. -/
theorem setState_inv (now : Nat) (key value : List Nat) {s : RState}
    (hinv : RInv s) : RInv (setState now key value s) := by
  have hfresh : ∀ q ∈ s.expirations, q.1 ≠ (now + defaultTTLMillis, s.nextId) := by
    intro q hq hcontra
    have h1 := hinv.idX q hq
    rw [hcontra] at h1
    exact Nat.lt_irrefl s.nextId h1
  have hs1 : expSorted (expInsert (now + defaultTTLMillis, s.nextId) key
      s.expirations) := expInsert_sorted hinv.sorted
  have hmem1 : ∀ q, q ∈ expInsert (now + defaultTTLMillis, s.nextId) key
        s.expirations ↔
      q = ((now + defaultTTLMillis, s.nextId), key) ∨ q ∈ s.expirations :=
    fun q => expInsert_mem_fresh hinv.sorted hfresh q
  have hent : ∀ k, (setState now key value s).entries k
      = if k = key then some ⟨s.nextId, value, some (now + defaultTTLMillis)⟩
        else s.entries k := fun _ => rfl
  have hnid : (setState now key value s).nextId = s.nextId + 1 := rfl
  cases hk : s.entries key with
  | none =>
    have hexps := setState_expirations_none now key value hk
    refine RInv_set_core hinv now key value (fun _ => True) hent hnid ?_ ?_ ?_ ?_
    · rw [hexps]
      exact hs1
    · intro q
      rw [hexps, hmem1 q]
      simp
    · intro _ _ _ _ _ _
      trivial
    · intro e he
      rw [hk] at he
      exact Option.noConfusion he
  | some pe =>
    cases hw : pe.expiresAt with
    | none =>
      have hexps := setState_expirations_noexp now key value hk hw
      refine RInv_set_core hinv now key value (fun _ => True) hent hnid ?_ ?_ ?_ ?_
      · rw [hexps]
        exact hs1
      · intro q
        rw [hexps, hmem1 q]
        simp
      · intro _ _ _ _ _ _
        trivial
      · intro e he w' hx'
        rw [hk] at he
        have hepe : pe = e := Option.some.inj he
        subst hepe
        rw [hw] at hx'
        exact Option.noConfusion hx'
    | some w =>
      have hexps := setState_expirations_some now key value hk hw
      refine RInv_set_core hinv now key value (fun p => p ≠ (w, pe.id)) hent hnid
        ?_ ?_ ?_ ?_
      · rw [hexps]
        exact expRemove_sorted hs1
      · intro q
        rw [hexps, expRemove_mem hs1 q, hmem1 q]
        constructor
        · rintro ⟨rfl | hq, hne⟩
          · exact Or.inl rfl
          · exact Or.inr ⟨hq, hne⟩
        · rintro (rfl | ⟨hq, hne⟩)
          · refine ⟨Or.inl rfl, ?_⟩
            intro hcontra
            have hpe := hinv.idE key pe hk
            have h3 : s.nextId = pe.id := congrArg Prod.snd hcontra
            omega
          · exact ⟨Or.inr hq, hne⟩
      · intro k e t he hx hkk hcontra
        have hid : e.id = pe.id := congrArg Prod.snd hcontra
        exact hkk (hinv.idInj k key e pe he hk hid)
      · intro e he w' hx'
        rw [hk] at he
        have hepe : pe = e := Option.some.inj he
        subst hepe
        rw [hw] at hx'
        have hww : w = w' := Option.some.inj hx'
        subst hww
        intro hkp
        exact hkp rfl

/-- Common core of the purge preservation proof, phrased through the
`purgeLoop` characterization. -/
theorem RInv_purge_core {s sn : RState} (hinv : RInv s) (now : Nat)
    (hexps : sn.expirations = s.expirations.filter (fun q => decide (now < q.1.1)))
    (hents : ∀ k, sn.entries k
        = if s.expirations.any (fun q => decide (q.1.1 ≤ now) && decide (q.2 = k))
          then none else s.entries k)
    (hnid : sn.nextId = s.nextId) :
    RInv sn := by
  have hkeepT : ∀ k e, sn.entries k = some e → s.entries k = some e ∧
      ¬ (s.expirations.any
          (fun q => decide (q.1.1 ≤ now) && decide (q.2 = k)) = true) := by
    intro k e he
    rw [hents k] at he
    by_cases hany : s.expirations.any
        (fun q => decide (q.1.1 ≤ now) && decide (q.2 = k)) = true
    · rw [if_pos hany] at he
      exact Option.noConfusion he
    · rw [if_neg hany] at he
      exact ⟨he, hany⟩
  constructor
  · rw [hexps]
    exact List.Pairwise.sublist (List.filter_sublist _) hinv.sorted
  · intro k e he
    rw [hnid]
    exact hinv.idE k e (hkeepT k e he).1
  · intro q hq
    rw [hnid]
    rw [hexps] at hq
    exact hinv.idX q (List.mem_of_mem_filter hq)
  · intro k k' e e' he he' hid
    exact hinv.idInj k k' e e' (hkeepT k e he).1 (hkeepT k' e' he').1 hid
  · intro k e t he hx
    obtain ⟨hold, hany⟩ := hkeepT k e he
    have hmem := hinv.link1 k e t hold hx
    rw [hexps, List.mem_filter]
    refine ⟨hmem, ?_⟩
    simp only [decide_eq_true_eq]
    by_contra hnot
    push_neg at hnot
    exact hany (List.any_eq_true.mpr ⟨((t, e.id), k), hmem, by
      rw [Bool.and_eq_true, decide_eq_true_eq, decide_eq_true_eq]
      exact ⟨hnot, rfl⟩⟩)
  · intro w i k hq
    rw [hexps] at hq
    have hmemold := List.mem_of_mem_filter hq
    have hnow : now < w := by
      have h1 := (List.mem_filter.mp hq).2
      simpa using h1
    obtain ⟨e0, he0, hx0, hi0⟩ := hinv.link2 w i k hmemold
    refine ⟨e0, ?_, hx0, hi0⟩
    rw [hents k]
    by_cases hany : s.expirations.any
        (fun q => decide (q.1.1 ≤ now) && decide (q.2 = k)) = true
    · exfalso
      obtain ⟨q', hq', hp⟩ := List.any_eq_true.mp hany
      rw [Bool.and_eq_true, decide_eq_true_eq, decide_eq_true_eq] at hp
      obtain ⟨hle, hkq⟩ := hp
      obtain ⟨e1, he1, hx1, hi1⟩ := hinv.link2 q'.1.1 q'.1.2 k
        (by rw [← hkq]; exact hq')
      have he01 : e0 = e1 := by
        rw [he0] at he1
        exact Option.some.inj he1
      rw [← he01] at hx1
      rw [hx0] at hx1
      have hwq : w = q'.1.1 := Option.some.inj hx1
      omega
    · rw [if_neg hany]
      exact he0

/-- `purge_expired_keys` preserves the invariant. -/
theorem purgeState_inv (now : Nat) {s : RState} (hinv : RInv s) :
    RInv (purgeState now s) := by
  by_cases hsh : s.shutdown = true
  · have heq : purgeState now s = s := by
      rw [purgeState, purgeExpiredKeys, if_pos hsh]
    rw [heq]
    exact hinv
  · obtain ⟨hexps, hents, -⟩ :=
      purgeLoop_spec now s.expirations s.entries hinv.sorted
    have hsn : purgeState now s
        = { s with expirations := (purgeLoop now s.expirations s.entries).2.1,
                   entries := (purgeLoop now s.expirations s.entries).2.2 } := by
      rw [purgeState, purgeExpiredKeys, if_neg hsh]
    refine RInv_purge_core hinv now ?_ ?_ ?_
    · rw [hsn]
      exact hexps
    · intro k
      rw [hsn]
      exact hents k
    · rw [hsn]

/-- `shutdown_purge_task` preserves the invariant (it only flips the
flag). -/
theorem shutdownPurge_inv {s : RState} (hinv : RInv s) :
    RInv (shutdownPurge s) := by
  obtain ⟨h1, h2, h3, h4, h5, h6⟩ := hinv
  exact ⟨h1, h2, h3, h4, h5, h6⟩

/-- Every reachable state satisfies the invariant. -/
theorem Reach_RInv {s : RState} (hr : Reach s) : RInv s := by
  induction hr with
  | init => exact RInv_init
  | set now key value _ ih => exact setState_inv now key value ih
  | purge now _ ih => exact purgeState_inv now ih
  | shutdown _ ih => exact shutdownPurge_inv ih

/-- **C6.** In every state of the in-memory MiniRedis store reachable
from the initial empty state by any sequence of `set`,
`purge_expired_keys` and `shutdown_purge_task` operations (`get`
performs no state change), each key whose entry has
`expires_at = Some(t)` has the tuple `(t, entry.id)` mapped to that key
in `expirations`, and that tuple key occurs exactly once there; and
conversely every tuple `(when, id) → key` of `expirations` corresponds
to the key's current entry (same expiration instant, same id) — so in
particular a replaced entry's expiration tuple has been removed. -/
theorem mini_redis_expirations_invariant (s : RState) (hr : Reach s) :
    (∀ k e t, s.entries k = some e → e.expiresAt = some t →
      ((t, e.id), k) ∈ s.expirations ∧
      s.expirations.countP (fun q => decide (q.1 = (t, e.id))) = 1) ∧
    (∀ w i k, ((w, i), k) ∈ s.expirations →
      ∃ e, s.entries k = some e ∧ e.expiresAt = some w ∧ e.id = i) := by
  have hinv := Reach_RInv hr
  constructor
  · intro k e t he hx
    have hmem := hinv.link1 k e t he hx
    exact ⟨hmem, expSorted_countP hinv.sorted hmem⟩
  · exact hinv.link2

/-- Witness for C6: after `set "a" "b"` at time 0 on the empty store
(a reachable state), key `"a"`'s tuple `((100000, 0), "a")` is present
exactly once, as the theorem demands. -/
theorem mini_redis_expirations_invariant_witness :
    (setState 0 [97] [98] initRState).entries [97]
        = some ⟨0, [98], some 100000⟩ ∧
    ((100000, 0), [97]) ∈ (setState 0 [97] [98] initRState).expirations ∧
    (setState 0 [97] [98] initRState).expirations.countP
        (fun q => decide (q.1 = (100000, 0))) = 1 := by
  have h := (mini_redis_expirations_invariant (setState 0 [97] [98] initRState)
      (Reach.set 0 [97] [98] Reach.init)).1 [97] ⟨0, [98], some 100000⟩ 100000
      (by decide) rfl
  exact ⟨by decide, h.1, h.2⟩

/-! ## Claim C7: recovery of the append-log index -/

/-- Hand-proved unfolding of `utf8Valid` on a cons cell (stated once so
later proofs can rewrite with it). -/
theorem utf8Valid_cons (c : Nat) (rest : List Nat) :
    utf8Valid (c :: rest)
      = (if c ≤ 0x7F then utf8Valid rest
         else if 0xC2 ≤ c && c ≤ 0xDF then
           match rest with
           | c1 :: r => isCont c1 && utf8Valid r
           | [] => false
         else if c = 0xE0 then
           match rest with
           | c1 :: c2 :: r => (0xA0 ≤ c1 && c1 ≤ 0xBF) && isCont c2 && utf8Valid r
           | _ => false
         else if (0xE1 ≤ c && c ≤ 0xEC) || c = 0xEE || c = 0xEF then
           match rest with
           | c1 :: c2 :: r => isCont c1 && isCont c2 && utf8Valid r
           | _ => false
         else if c = 0xED then
           match rest with
           | c1 :: c2 :: r => (0x80 ≤ c1 && c1 ≤ 0x9F) && isCont c2 && utf8Valid r
           | _ => false
         else if c = 0xF0 then
           match rest with
           | c1 :: c2 :: c3 :: r =>
             (0x90 ≤ c1 && c1 ≤ 0xBF) && isCont c2 && isCont c3 && utf8Valid r
           | _ => false
         else if 0xF1 ≤ c && c ≤ 0xF3 then
           match rest with
           | c1 :: c2 :: c3 :: r => isCont c1 && isCont c2 && isCont c3 && utf8Valid r
           | _ => false
         else if c = 0xF4 then
           match rest with
           | c1 :: c2 :: c3 :: r =>
             (0x80 ≤ c1 && c1 ≤ 0x8F) && isCont c2 && isCont c3 && utf8Valid r
           | _ => false
         else false) := by
  cases rest with
  | nil => rfl
  | cons c1 r1 =>
    cases r1 with
    | nil => rfl
    | cons c2 r2 =>
      cases r2 with
      | nil => rfl
      | cons c3 r => rfl

theorem utf8ValidAppendAux : ∀ (n : Nat) (a b : List Nat), a.length ≤ n →
    utf8Valid a = true → utf8Valid b = true → utf8Valid (a ++ b) = true := by
  intro n
  induction n with
  | zero =>
    intro a b hlen ha hb
    have hnil : a = [] := List.eq_nil_of_length_eq_zero (Nat.le_zero.mp hlen)
    subst hnil
    rw [List.nil_append]
    exact hb
  | succ n ih =>
    intro a b hlen ha hb
    cases a with
    | nil => rw [List.nil_append]; exact hb
    | cons c rest =>
      rw [List.cons_append]
      rw [utf8Valid_cons] at ha ⊢
      split at ha
      next h1 =>
        rw [if_pos h1]
        exact ih rest b (by simp at hlen; omega) ha hb
      next h1 =>
        rw [if_neg h1]
        split at ha
        next h2 =>
          rw [if_pos h2]
          cases rest with
          | nil => simp at ha
          | cons c1 r =>
            rw [List.cons_append]
            simp only [Bool.and_eq_true] at ha ⊢
            exact ⟨ha.1, ih r b (by simp at hlen; omega) ha.2 hb⟩
        next h2 =>
          rw [if_neg h2]
          split at ha
          next h3 =>
            rw [if_pos h3]
            cases rest with
            | nil => simp at ha
            | cons c1 r1 =>
              cases r1 with
              | nil => simp at ha
              | cons c2 r =>
                rw [List.cons_append, List.cons_append]
                simp only [Bool.and_eq_true] at ha ⊢
                exact ⟨ha.1, ih r b (by simp at hlen; omega) ha.2 hb⟩
          next h3 =>
            rw [if_neg h3]
            split at ha
            next h4 =>
              rw [if_pos h4]
              cases rest with
              | nil => simp at ha
              | cons c1 r1 =>
                cases r1 with
                | nil => simp at ha
                | cons c2 r =>
                  rw [List.cons_append, List.cons_append]
                  simp only [Bool.and_eq_true] at ha ⊢
                  exact ⟨ha.1, ih r b (by simp at hlen; omega) ha.2 hb⟩
            next h4 =>
              rw [if_neg h4]
              split at ha
              next h5 =>
                rw [if_pos h5]
                cases rest with
                | nil => simp at ha
                | cons c1 r1 =>
                  cases r1 with
                  | nil => simp at ha
                  | cons c2 r =>
                    rw [List.cons_append, List.cons_append]
                    simp only [Bool.and_eq_true] at ha ⊢
                    exact ⟨ha.1, ih r b (by simp at hlen; omega) ha.2 hb⟩
              next h5 =>
                rw [if_neg h5]
                split at ha
                next h6 =>
                  rw [if_pos h6]
                  cases rest with
                  | nil => simp at ha
                  | cons c1 r1 =>
                    cases r1 with
                    | nil => simp at ha
                    | cons c2 r2 =>
                      cases r2 with
                      | nil => simp at ha
                      | cons c3 r =>
                        rw [List.cons_append, List.cons_append, List.cons_append]
                        simp only [Bool.and_eq_true] at ha ⊢
                        exact ⟨ha.1, ih r b (by simp at hlen; omega) ha.2 hb⟩
                next h6 =>
                  rw [if_neg h6]
                  split at ha
                  next h7 =>
                    rw [if_pos h7]
                    cases rest with
                    | nil => simp at ha
                    | cons c1 r1 =>
                      cases r1 with
                      | nil => simp at ha
                      | cons c2 r2 =>
                        cases r2 with
                        | nil => simp at ha
                        | cons c3 r =>
                          rw [List.cons_append, List.cons_append, List.cons_append]
                          simp only [Bool.and_eq_true] at ha ⊢
                          exact ⟨ha.1, ih r b (by simp at hlen; omega) ha.2 hb⟩
                  next h7 =>
                    rw [if_neg h7]
                    split at ha
                    next h8 =>
                      rw [if_pos h8]
                      cases rest with
                      | nil => simp at ha
                      | cons c1 r1 =>
                        cases r1 with
                        | nil => simp at ha
                        | cons c2 r2 =>
                          cases r2 with
                          | nil => simp at ha
                          | cons c3 r =>
                            rw [List.cons_append, List.cons_append, List.cons_append]
                            simp only [Bool.and_eq_true] at ha ⊢
                            exact ⟨ha.1, ih r b (by simp at hlen; omega) ha.2 hb⟩
                    next h8 =>
                      rw [if_neg h8]
                      simp at ha

theorem utf8Valid_append {a b : List Nat} (ha : utf8Valid a = true)
    (hb : utf8Valid b = true) : utf8Valid (a ++ b) = true :=
  utf8ValidAppendAux a.length a b (Nat.le_refl _) ha hb

theorem splitOnByte_ne_nil (sep : Nat) (l : List Nat) : splitOnByte sep l ≠ [] := by
  cases l with
  | nil => simp [splitOnByte]
  | cons c rest =>
    rw [splitOnByte]
    by_cases h : c = sep
    · rw [if_pos h]
      simp
    · rw [if_neg h]
      cases hs : splitOnByte sep rest with
      | nil => simp
      | cons hh tt => simp

/-- `str::split` distributes over the first separator occurrence. -/
theorem splitOnByte_no_sep_append (sep : Nat) (a rest : List Nat)
    (ha : ∀ c ∈ a, c ≠ sep) :
    splitOnByte sep (a ++ sep :: rest) = a :: splitOnByte sep rest := by
  induction a with
  | nil =>
    rw [List.nil_append, splitOnByte, if_pos rfl]
  | cons x xs ih =>
    rw [List.cons_append, splitOnByte,
        if_neg (ha x (List.mem_cons_self _ _)),
        ih (fun c hc => ha c (List.mem_cons_of_mem _ hc))]

theorem getLast?_append_cons (a : List Nat) (c : Nat) (v : List Nat) :
    (a ++ c :: v).getLast? = (c :: v).getLast? := by
  rw [List.getLast?_append]
  cases hv : (c :: v).getLast? with
  | none => exact absurd hv (by simp)
  | some x => rfl

/-- The file produced by a run of `set`s is the concatenation of the
`key ++ "," ++ value ++ "\n"` records. -/
theorem runSets_file (ops : List (List Nat × List Nat)) : ∀ (s : SState),
    (ops.foldl (fun t kv => ssSet t kv.1 kv.2) s).file
      = s.file ++ (ops.map (fun kv => kv.1 ++ 44 :: (kv.2 ++ [10]))).flatten := by
  induction ops with
  | nil =>
    intro s
    simp
  | cons kv rest ih =>
    intro s
    rw [List.foldl_cons, List.map_cons, List.flatten_cons, ih (ssSet s kv.1 kv.2)]
    show (s.file ++ (kv.1 ++ 44 :: (kv.2 ++ [10]))) ++ _ = _
    rw [List.append_assoc]

/-- Splitting a record-shaped file at every newline yields the record
interiors followed by one empty final piece. -/
theorem splitOnByte_records (ops : List (List Nat × List Nat))
    (h10 : ∀ op ∈ ops, (∀ c ∈ op.1, c ≠ 10) ∧ (∀ c ∈ op.2, c ≠ 10)) :
    splitOnByte 10 ((ops.map (fun kv => kv.1 ++ 44 :: (kv.2 ++ [10]))).flatten)
      = ops.map (fun kv => kv.1 ++ 44 :: kv.2) ++ [[]] := by
  induction ops with
  | nil => rfl
  | cons kv rest ih =>
    rw [List.map_cons, List.flatten_cons, List.map_cons]
    have hshape : (kv.1 ++ 44 :: (kv.2 ++ [10]))
          ++ (rest.map (fun kv => kv.1 ++ 44 :: (kv.2 ++ [10]))).flatten
        = (kv.1 ++ 44 :: kv.2)
          ++ 10 :: (rest.map (fun kv => kv.1 ++ 44 :: (kv.2 ++ [10]))).flatten := by
      simp [List.append_assoc]
    have hns : ∀ c ∈ kv.1 ++ 44 :: kv.2, c ≠ 10 := by
      intro c hc
      rcases List.mem_append.mp hc with hc1 | hc2
      · exact (h10 kv (List.mem_cons_self _ _)).1 c hc1
      · rcases List.mem_cons.mp hc2 with rfl | hc3
        · norm_num
        · exact (h10 kv (List.mem_cons_self _ _)).2 c hc3
    rw [hshape, splitOnByte_no_sep_append 10 _ _ hns,
        ih (fun op hop => h10 op (List.mem_cons_of_mem _ hop))]
    rfl

/-- With newline-free keys and values and values not ending in `\r`,
tokio's line stream over the log file yields exactly the record
interiors. -/
theorem tokioLines_records (ops : List (List Nat × List Nat))
    (h10 : ∀ op ∈ ops, (∀ c ∈ op.1, c ≠ 10) ∧ (∀ c ∈ op.2, c ≠ 10))
    (h13 : ∀ op ∈ ops, op.2.getLast? ≠ some 13) :
    tokioLines ((ops.map (fun kv => kv.1 ++ 44 :: (kv.2 ++ [10]))).flatten)
      = ops.map (fun kv => kv.1 ++ 44 :: kv.2) := by
  have hfix : ∀ kv ∈ ops, stripCR (kv.1 ++ 44 :: kv.2) = kv.1 ++ 44 :: kv.2 := by
    intro kv hkv
    have hne : ¬ ((kv.1 ++ 44 :: kv.2).getLast? = some 13) := by
      rw [getLast?_append_cons]
      cases hv : kv.2 with
      | nil => simp
      | cons y ys =>
        rw [List.getLast?_cons_cons, ← hv]
        exact h13 kv hkv
    rw [stripCR, if_neg hne]
  simp only [tokioLines]
  rw [splitOnByte_records ops h10]
  have hlast : (ops.map (fun kv : List Nat × List Nat => kv.1 ++ 44 :: kv.2)
        ++ [[]]).getLast? = some ([] : List Nat) := List.getLast?_concat _
  rw [hlast]
  show (ops.map (fun kv : List Nat × List Nat => kv.1 ++ 44 :: kv.2)
        ++ [[]]).dropLast.map stripCR
      = ops.map (fun kv => kv.1 ++ 44 :: kv.2)
  rw [List.dropLast_concat, List.map_map]
  exact List.map_congr_left hfix

/-- Hand-proved unfolding of `recoverLoop` on a cons cell. -/
theorem recoverLoop_cons (line : List Nat) (rest : List (List Nat)) (off : Nat)
    (idx : List (List Nat × Nat)) :
    recoverLoop (line :: rest) off idx
      = if utf8Valid line then
          match splitOnByte 44 line with
          | k0 :: _ :: _ =>
            recoverLoop rest (off + line.length + 1) (ainsert k0 off idx)
          | _ => .error (.corrupted off)
        else .error .invalidUtf8 := rfl

/-- The recovery loop over record interiors reproduces the runtime
index built by the same `set`s, offset for offset. -/
theorem recoverLoop_runSets (ops : List (List Nat × List Nat)) :
    ∀ (s : SState),
      (∀ op ∈ ops, (∀ c ∈ op.1, c ≠ 44 ∧ c ≠ 10) ∧ utf8Valid op.1 = true) →
      (∀ op ∈ ops, utf8Valid op.2 = true) →
      recoverLoop (ops.map (fun kv => kv.1 ++ 44 :: kv.2)) s.file.length s.index
        = .ok ((ops.foldl (fun t kv => ssSet t kv.1 kv.2) s).index) := by
  induction ops with
  | nil =>
    intro s _ _
    rfl
  | cons kv rest ih =>
    intro s hk hv
    rw [List.map_cons, List.foldl_cons, recoverLoop_cons]
    have hk0 := hk kv (List.mem_cons_self _ _)
    have hu : utf8Valid (kv.1 ++ 44 :: kv.2) = true := by
      have h2 := hv kv (List.mem_cons_self _ _)
      have h3 : utf8Valid (44 :: kv.2) = true := by
        rw [utf8Valid_cons, if_pos (by norm_num)]
        exact h2
      exact utf8Valid_append hk0.2 h3
    rw [if_pos hu,
        splitOnByte_no_sep_append 44 kv.1 kv.2 (fun c hc => (hk0.1 c hc).1)]
    cases hsp : splitOnByte 44 kv.2 with
    | nil => exact absurd hsp (splitOnByte_ne_nil 44 kv.2)
    | cons v0 vr =>
      have hlen2 : (ssSet s kv.1 kv.2).file.length
          = s.file.length + (kv.1 ++ 44 :: kv.2).length + 1 := by
        simp only [ssSet, List.length_append, List.length_cons, List.length_nil]
        omega
      have hidx : (ssSet s kv.1 kv.2).index
          = ainsert kv.1 s.file.length s.index := rfl
      have hrec := ih (ssSet s kv.1 kv.2)
        (fun op hop => hk op (List.mem_cons_of_mem _ hop))
        (fun op hop => hv op (List.mem_cons_of_mem _ hop))
      rw [hlen2, hidx] at hrec
      exact hrec

/-- Recovery aborts with the corruption `bail!` when some (valid UTF-8)
line has fewer than two comma-separated fields. -/
theorem recoverLoop_corrupt :
    ∀ (lines : List (List Nat)) (off : Nat) (idx : List (List Nat × Nat)),
      (∀ line ∈ lines, utf8Valid line = true) →
      (∃ line ∈ lines, (splitOnByte 44 line).length < 2) →
      ∃ o, recoverLoop lines off idx = .error (.corrupted o) := by
  intro lines
  induction lines with
  | nil =>
    intro off idx _ hex
    obtain ⟨l, hl, -⟩ := hex
    cases hl
  | cons line rest ih =>
    intro off idx hutf hex
    rw [recoverLoop_cons, if_pos (hutf line (List.mem_cons_self _ _))]
    by_cases hbad : (splitOnByte 44 line).length < 2
    · cases hsp : splitOnByte 44 line with
      | nil => exact ⟨off, rfl⟩
      | cons k0 t =>
        cases t with
        | nil => exact ⟨off, rfl⟩
        | cons v0 t2 =>
          rw [hsp] at hbad
          exfalso
          simp only [List.length_cons] at hbad
          omega
    · cases hsp : splitOnByte 44 line with
      | nil => exact absurd hsp (splitOnByte_ne_nil 44 line)
      | cons k0 t =>
        cases t with
        | nil =>
          rw [hsp] at hbad
          exact absurd (by norm_num) hbad
        | cons v0 t2 =>
          have hex2 : ∃ l ∈ rest, (splitOnByte 44 l).length < 2 := by
            obtain ⟨l, hl, hbadl⟩ := hex
            rcases List.mem_cons.mp hl with rfl | hl2
            · exact absurd hbadl hbad
            · exact ⟨l, hl2, hbadl⟩
          exact ih (off + line.length + 1) (ainsert k0 off idx)
            (fun l hl => hutf l (List.mem_cons_of_mem _ hl)) hex2

/-- Counterexample to C7 as stated: the keys `"k"`, `"j"` contain
neither `,` nor `\n` and the values `"a\r"`, `"b"` contain no `\n`,
yet recovery computes offset 4 for `"j"` where the runtime index holds
5 — tokio's line reader strips the `\r` that terminates the first
value, so `line.len() + 1` undercounts that record by one byte. -/
theorem simple_store_recover_offset_drift_cex :
    (∀ c ∈ [107], c ≠ 44 ∧ c ≠ 10) ∧ (∀ c ∈ [106], c ≠ 44 ∧ c ≠ 10) ∧
    (∀ c ∈ [97, 13], c ≠ 10) ∧ (∀ c ∈ [98], c ≠ 10) ∧
    alookup (runSets [([107], [97, 13]), ([106], [98])]).index [106] = some 5 ∧
    recover (runSets [([107], [97, 13]), ([106], [98])]).file
        = .ok [([106], 4), ([107], 0)] := by
  refine ⟨by decide, by decide, by decide, by decide, by decide, ?_⟩
  rfl

/-- **C7 (amended).** For every sequence of `set`s whose keys contain
neither `,` nor `\n` and are valid UTF-8 (as Rust `String`s are), and
whose values contain no `\n`, are valid UTF-8 and do not end in `\r`,
`recover` over the log file those sets produced rebuilds exactly the
in-memory index the sets left behind — each key at the byte offset of
the start of its most recently appended record, offsets accumulated as
`prev_offset + line_length + 1`; and recovery aborts with the
corruption error whenever some line of a (valid UTF-8) file has fewer
than two comma-separated fields. -/
theorem recover_rebuilds_index (ops : List (List Nat × List Nat))
    (hkey : ∀ op ∈ ops, (∀ c ∈ op.1, c ≠ 44 ∧ c ≠ 10) ∧ utf8Valid op.1 = true)
    (hval : ∀ op ∈ ops, (∀ c ∈ op.2, c ≠ 10) ∧ utf8Valid op.2 = true ∧
        op.2.getLast? ≠ some 13) :
    recover (runSets ops).file = .ok (runSets ops).index ∧
    (∀ file : List Nat,
      (∀ line ∈ tokioLines file, utf8Valid line = true) →
      (∃ line ∈ tokioLines file, (splitOnByte 44 line).length < 2) →
      ∃ off, recover file = .error (.corrupted off)) := by
  constructor
  · have hfile : (runSets ops).file
        = (ops.map (fun kv => kv.1 ++ 44 :: (kv.2 ++ [10]))).flatten := by
      have h := runSets_file ops initSS
      simpa [runSets, initSS] using h
    rw [recover, hfile, tokioLines_records ops
        (fun op hop => ⟨fun c hc => ((hkey op hop).1 c hc).2, (hval op hop).1⟩)
        (fun op hop => (hval op hop).2.2)]
    exact recoverLoop_runSets ops initSS hkey (fun op hop => (hval op hop).2.1)
  · intro file hutf hex
    exact recoverLoop_corrupt (tokioLines file) 0 [] hutf hex

/-- Witness for C7: three sets (the last re-setting the first key) on
which the amended hypotheses hold; recovery reproduces the index
exactly, with the re-set key at offset 8 = 2 * (1 + 1 + 1 + 1). -/
theorem recover_rebuilds_index_witness :
    recover (runSets [([107], [97]), ([106], [98]), ([107], [99])]).file
        = .ok (runSets [([107], [97]), ([106], [98]), ([107], [99])]).index ∧
    alookup (runSets [([107], [97]), ([106], [98]), ([107], [99])]).index [107]
        = some 8 :=
  ⟨(recover_rebuilds_index [([107], [97]), ([106], [98]), ([107], [99])]
      (by decide) (by decide)).1, by decide⟩

end RaphDB
